import Mathlib

/-!
Verification of the GitAwareBackup engine (src/tools/backup-dir/main.py).

The Python program walks a source directory twice (a scan pass and a write
pass), excludes `.git` directories and paths matched by compiled `.gitignore`
rule sets, and writes the remaining files into an archive, optionally with a
manifest of per-file metadata and checksums.

The shallow embedding below models:
  * the filesystem as a finite tree of named files and directories
    (`FSEntry`); real directories have pairwise distinct child names, which
    is the `wfForest` hypothesis carried by the theorems;
  * Python string paths as component lists, rendered by `pathString` exactly
    where the source manipulates raw strings (`str.startswith`,
    `os.path.relpath`);
  * the external `pathspec` library by the compiled matcher functions it
    returns (`Spec`), and `hashlib.sha256` by an abstract streaming hash
    (`HashModel`);
  * the mutable object state of `GitAwareBackup` (`gitignore_specs`,
    `excluded_paths`, `total_files`, `processed_files`) together with the
    externally observable archive and manifest as an explicit state record
    (`BkState`) threaded through the walks;
  * exceptions raised by per-file operations (`tarfile.add`, `os.stat`,
    checksum reads) by boolean failure oracles in `Env`.

Recursive walks over the tree are written with an explicit recursion-depth
bound ("fuel") so that they are structurally recursive and evaluate inside
the kernel.  Any fuel of at least `sizeOf` of the forest strictly exceeds
the recursion depth, so the zero-fuel branch is never taken; every theorem
about a walk holds for every such sufficient fuel, which the hypothesis
`sizeOf es ≤ fuel` expresses.
-/

namespace GitBackup

/-- Bytes of a file, a shallow model of a Python bytes object. -/
abbrev Bytes := List Nat

/-- A node of the source filesystem tree: a regular file (with content bytes
and an ISO modification-time string) or a directory with children. -/
inductive FSEntry : Type where
  | file (name : String) (content : Bytes) (mtime : String)
  | dir (name : String) (children : List FSEntry)
deriving Repr, BEq

/-- Name of an entry (the path component it occupies in its parent). -/
def FSEntry.name : FSEntry → String
  | .file n _ _ => n
  | .dir n _ => n

/-- Children of a directory entry; `[]` for files. -/
def FSEntry.childrenOf : FSEntry → List FSEntry
  | .file _ _ _ => []
  | .dir _ cs => cs

/-- Content bytes of a file entry; `[]` for directories. -/
def FSEntry.contentOf : FSEntry → Bytes
  | .file _ c _ => c
  | .dir _ _ => []

/-- Modification time of a file entry (ISO string, as `datetime.isoformat`). -/
def FSEntry.mtimeOf : FSEntry → String
  | .file _ _ m => m
  | .dir _ _ => ""

/-- Directory test, the model of `os.path.isdir` on an entry. -/
def FSEntry.isDirE : FSEntry → Bool
  | .dir _ _ => true
  | .file _ _ _ => false

/-- Regular-file test. -/
def FSEntry.isFileE : FSEntry → Bool
  | .dir _ _ => false
  | .file _ _ _ => true

theorem FSEntry.sizeOf_childrenOf_lt (e : FSEntry) : sizeOf e.childrenOf < sizeOf e := by
  cases e with
  | file n c m =>
    cases c <;> (simp [FSEntry.childrenOf]; omega)
  | dir n cs =>
    simp [FSEntry.childrenOf]

/-- An absolute path, as the list of its components (`["a","b"]` for `/a/b`). -/
abbrev AbsPath := List String

/-- Render a component list as the absolute path string that the Python code
manipulates: `pathString ["a","b"] = "/a/b"`. -/
def pathString : AbsPath → String
  | [] => ""
  | n :: r => "/" ++ n ++ pathString r

/-- Model of Python `path.startswith(dirPath)`: code-point sequence test. -/
def pyStartsWith (path dirPath : String) : Bool :=
  dirPath.data.isPrefixOf path.data

/-- Length of the longest common leading component run, the helper of
`os.path.relpath`. -/
def commonLen : List String → List String → Nat
  | a :: as, b :: bs => if a = b then commonLen as bs + 1 else 0
  | _, _ => 0

/-- Components of `os.path.relpath(path, start)` for absolute normalized
paths: `..` entries for what remains of `start`, then the rest of `path`. -/
def relpathComps (path start : AbsPath) : List String :=
  List.replicate (start.length - commonLen start path) ".." ++ path.drop (commonLen start path)

/-- String form of `os.path.relpath` (`"."` when the two paths coincide). -/
def relpathStr (path start : AbsPath) : String :=
  match relpathComps path start with
  | [] => "."
  | cs => String.intercalate "/" cs

/-- A compiled `pathspec.PathSpec`, modelled by its `match_file` function on
the relative path string. -/
abbrev Spec := String → Bool

/-- The external compilation step `pathspec.PathSpec.from_lines('gitwildmatch', f)`
applied to the raw bytes of a pattern file, kept abstract. -/
abbrev Compile := Bytes → Spec

/-- The mutable state of one `GitAwareBackup` operation: the object fields
`gitignore_specs`, `excluded_paths`, `total_files`, `processed_files`, plus
the externally observable effects (archive entries, manifest lines, and the
operand pairs of every evaluated progress division). -/
structure BkState where
  gitignore_specs : List (AbsPath × Spec)
  excluded_paths : List AbsPath
  total_files : Nat
  processed_files : Nat
  archive : List (List String)
  manifest : List String
  divisions : List (Nat × Nat)

/-- The state at the start of `create_backup` (fresh object fields). -/
def initState : BkState :=
  { gitignore_specs := [], excluded_paths := [], total_files := 0,
    processed_files := 0, archive := [], manifest := [], divisions := [] }

/-- Model of Python `set.add`: insert preserving set-membership semantics. -/
def addPath (p : AbsPath) (s : List AbsPath) : List AbsPath :=
  if p ∈ s then s else p :: s

/-- Model of Python dict assignment `d[k] = v`: replace the value in place
when the key is present, append otherwise. -/
def dictInsert (l : List (AbsPath × Spec)) (k : AbsPath) (v : Spec) : List (AbsPath × Spec) :=
  if l.any (fun kv => kv.1 = k) then l.map (fun kv => if kv.1 = k then (k, v) else kv)
  else l ++ [(k, v)]

/-- The gitignore-pattern part of `_should_exclude` (main.py lines 126-131):
some registered rule set whose base-directory string is a `startswith` match
of the path matches the path relativized to that base. -/
def rulesMatch (specs : List (AbsPath × Spec)) (path : AbsPath) : Bool :=
  specs.any (fun ds => pyStartsWith (pathString path) (pathString ds.1) && ds.2 (relpathStr path ds.1))

/-- Shallow embedding of `GitAwareBackup._should_exclude` (main.py lines
114-133). `isDir` stands for `os.path.isdir(path)` on the live tree.  The
returned state records the `excluded_paths` cache insertion the method
performs. -/
def should_exclude (path : AbsPath) (isDir : Bool) (st : BkState) : Bool × BkState :=
  if path ∈ st.excluded_paths then (true, st)
  else if path.getLast? == some ".git" && isDir then
    (true, { st with excluded_paths := addPath path st.excluded_paths })
  else
    match st.gitignore_specs.find?
        (fun ds => pyStartsWith (pathString path) (pathString ds.1) && ds.2 (relpathStr path ds.1)) with
    | some _ => (true, { st with excluded_paths := addPath path st.excluded_paths })
    | none => (false, st)

/-- The cache-free exclusion predicate: `.git` directory or rule-set match.
This is what `_should_exclude` computes when the cache does not interfere. -/
def excludedPure (specs : List (AbsPath × Spec)) (path : AbsPath) (isDir : Bool) : Bool :=
  (path.getLast? == some ".git" && isDir) || rulesMatch specs path

/-- Fuel-bounded embedding of `GitAwareBackup._scan_directory` (main.py
lines 91-107): one `os.walk` pass that records the `.git` child of a frame
in the exclusion cache and prunes it, registers the frame's `.gitignore`
rule set keyed by the frame directory, counts the frame's files, and
descends. -/
def scan_directory (compile : Compile) : Nat → AbsPath → List FSEntry → BkState → BkState
  | 0, _, _, st => st
  | Nat.succ fuel, path, es, st =>
    let dirsL := es.filter FSEntry.isDirE
    let filesL := es.filter FSEntry.isFileE
    let st1 := if dirsL.any (fun e => e.name == ".git") then
        { st with excluded_paths := addPath (path ++ [".git"]) st.excluded_paths }
      else st
    let kept := dirsL.eraseP (fun e => e.name == ".git")
    let st2 := match filesL.find? (fun e => e.name == ".gitignore") with
      | some f => { st1 with gitignore_specs := dictInsert st1.gitignore_specs path (compile f.contentOf) }
      | none => st1
    let st3 := { st2 with total_files := st2.total_files + filesL.length }
    kept.foldl (fun acc e => scan_directory compile fuel (path ++ [e.name]) e.childrenOf acc) st3

/-- An abstract streaming hash in the style of `hashlib.sha256()`: an
accumulator state, an `update` step and a `hexdigest` rendering.  The laws a
real streaming hash satisfies (`update` concatenates) are taken as
hypotheses where a theorem needs them. -/
structure HashModel (α : Type) where
  init : α
  upd : α → Bytes → α
  hex : α → String

/-- Fuel-bounded block sequence of `iter(lambda: f.read(4096), b"")`:
chunks of 4096 bytes, the last one possibly shorter, none empty. -/
def readChunksF : Nat → Bytes → List Bytes
  | 0, _ => []
  | Nat.succ _, [] => []
  | Nat.succ fuel, b :: bs => (b :: bs).take 4096 :: readChunksF fuel ((b :: bs).drop 4096)

/-- The block sequence of a whole file (the byte count bounds the number of
reads). -/
def readChunks (bs : Bytes) : List Bytes :=
  readChunksF bs.length bs

/-- Shallow embedding of `GitAwareBackup._calculate_checksum` (main.py lines
135-141): fold the 4096-byte blocks of the file into the streaming hash and
render the hex digest. -/
def calculate_checksum (H : HashModel α) (content : Bytes) : String :=
  H.hex ((readChunks content).foldl H.upd H.init)

/-- The digest of a whole byte string in one update: the independently
computed reference digest of a file's content. -/
def wholeDigest (H : HashModel α) (content : Bytes) : String :=
  H.hex (H.upd H.init content)

/-- The per-run inputs of `create_backup` that are external to the tree: the
pattern compiler, the per-file failure oracles (`addFail p` models
`tar.add` raising on file `p`; `metaFail p` models the later
`os.stat`/checksum/manifest step raising), the verbose flag and the absolute
source directory. -/
structure Env where
  compile : Compile
  addFail : AbsPath → Bool
  metaFail : AbsPath → Bool
  verbose : Bool
  src : AbsPath

/-- The manifest line `f"{arcname},{file_size},{file_mtime},{checksum}"`
(main.py line 190, without the trailing newline). -/
def manifestLine (arc : String) (size : Nat) (mtime check : String) : String :=
  arc ++ "," ++ toString size ++ "," ++ mtime ++ "," ++ check

/-- Processing of one admitted file inside `create_backup`'s inner `try`
(main.py lines 175-198): compute the arcname, `tar.add`, in verbose mode
stat/checksum and append the manifest line, then bump `processed_files` and,
at reporting points, evaluate the progress division whose operand pair is
recorded in `divisions`.  A true `addFail` or `metaFail` models the
exception the surrounding `except` swallows at that point. -/
def processFile (H : HashModel α) (env : Env) (fp : AbsPath) (f : FSEntry) (st : BkState) : BkState :=
  if env.addFail fp then st
  else
    let arc := relpathComps fp env.src.dropLast
    let st1 := { st with archive := st.archive ++ [arc] }
    if env.verbose && env.metaFail fp then st1
    else
      let st2 := if env.verbose then
          { st1 with manifest := st1.manifest ++
              [manifestLine (relpathStr fp env.src.dropLast) f.contentOf.length f.mtimeOf
                (calculate_checksum H f.contentOf)] }
        else st1
      let p' := st2.processed_files + 1
      let st3 := { st2 with processed_files := p' }
      if p' % 100 == 0 || p' == st3.total_files then
        { st3 with divisions := st3.divisions ++ [(p', st3.total_files)] }
      else st3

/-- The pruning list comprehension
`dirs[:] = [d for d in dirs if not self._should_exclude(os.path.join(root, d))]`
(main.py line 169): query each directory child in listing order, keep the
non-excluded ones. -/
def pruneDirs (path : AbsPath) : List FSEntry → BkState → List FSEntry × BkState
  | [], st => ([], st)
  | e :: rest, st =>
    let q := should_exclude (path ++ [e.name]) true st
    let r := pruneDirs path rest q.2
    (if q.1 then r.1 else e :: r.1, r.2)

/-- The file loop of `create_backup`'s write walk (main.py lines 171-198):
query each file child, process the admitted ones. -/
def filesPhase (H : HashModel α) (env : Env) (path : AbsPath) :
    List FSEntry → BkState → BkState
  | [], st => st
  | f :: rest, st =>
    let q := should_exclude (path ++ [f.name]) false st
    let st2 := if q.1 then q.2 else processFile H env (path ++ [f.name]) f q.2
    filesPhase H env path rest st2

/-- Fuel-bounded embedding of the write-pass `os.walk` loop of
`create_backup` (main.py lines 167-198): prune excluded directories (in
listing order), process the files of the frame, then descend into the kept
directories. -/
def writeWalk (H : HashModel α) (env : Env) : Nat → AbsPath → List FSEntry → BkState → BkState
  | 0, _, _, st => st
  | Nat.succ fuel, path, es, st =>
    let pr := pruneDirs path (es.filter FSEntry.isDirE) st
    let st2 := filesPhase H env path (es.filter FSEntry.isFileE) pr.2
    pr.1.foldl (fun acc e => writeWalk H env fuel (path ++ [e.name]) e.childrenOf acc) st2

/-- Shallow embedding of the successful path of `GitAwareBackup.create_backup`
(main.py lines 151-219) over a static source tree: scan pass, manifest
header (with `clock` standing for `datetime.now().isoformat()`), write walk,
and in verbose mode the final `backup_manifest.txt` archive entry. -/
def create_backup (H : HashModel α) (env : Env) (clock : String) (fuel : Nat) (tree : List FSEntry) : BkState :=
  let st1 := scan_directory env.compile fuel env.src tree initState
  let st2 := { st1 with manifest :=
      ["# Backup created: " ++ clock, "# Source: " ++ pathString env.src,
       "# path,size,modified,sha256"] }
  let st3 := writeWalk H env fuel env.src tree st2
  if env.verbose then { st3 with archive := st3.archive ++ [["backup_manifest.txt"]] } else st3

/-- The skipped-file statistic `create_backup` reports at the end
(main.py line 211): `total_files - processed_files`. -/
def skippedOf (st : BkState) : Int :=
  (st.total_files : Int) - (st.processed_files : Int)

/-- Duplicate-freeness of a name list, as a boolean. -/
def nodupB : List String → Bool
  | [] => true
  | x :: xs => !xs.contains x && nodupB xs

/-- Fuel-bounded well-formedness of a forest as a real directory listing:
sibling names are pairwise distinct, recursively. -/
def wfForest : Nat → List FSEntry → Bool
  | 0, _ => true
  | Nat.succ fuel, es =>
    nodupB (es.map FSEntry.name) && es.all (fun e => wfForest fuel e.childrenOf)

/-- First entry of a listing with the given name (what the OS resolves a
path component to). -/
def findName (n : String) (es : List FSEntry) : Option FSEntry :=
  es.find? (fun e => e.name == n)

/-- Navigate a relative component path to the listing of the directory it
denotes. -/
def forestAt (es : List FSEntry) : List String → Option (List FSEntry)
  | [] => some es
  | n :: r =>
    match findName n es with
    | some (FSEntry.dir _ cs) => forestAt cs r
    | _ => none

/-- Navigate a nonempty relative component path to the entry it denotes. -/
def entryAt (es : List FSEntry) : List String → Option FSEntry
  | [] => none
  | [n] => findName n es
  | n :: r =>
    match findName n es with
    | some (FSEntry.dir _ cs) => entryAt cs r
    | _ => none

/-- The relative path denotes a directory of the tree. -/
def isDirAtB (tree : List FSEntry) (r : List String) : Bool :=
  match entryAt tree r with
  | some e => e.isDirE
  | none => false

/-- The relative path denotes a regular file of the tree. -/
def isFileAtB (tree : List FSEntry) (r : List String) : Bool :=
  match entryAt tree r with
  | some e => e.isFileE
  | none => false

/-- Invariant on the `excluded_paths` cache during the write walk: every
cached path either matches the (now fixed) rule sets, or is a `.git`
directory of the tree.  Scan leaves the cache in this shape and
`_should_exclude` keeps it there. -/
def CacheOK (tree : List FSEntry) (src : AbsPath) (specs : List (AbsPath × Spec))
    (cache : List AbsPath) : Prop :=
  ∀ p ∈ cache, rulesMatch specs p = true ∨
    (∃ r, p = src ++ r ∧ p.getLast? = some ".git" ∧ isDirAtB tree r = true)

/-- Fuel-bounded scan-pass candidate total, cache-free: all files of the
tree outside pruned `.git` subtrees, counted per frame. -/
def pureScanTotal : Nat → List FSEntry → Nat
  | 0, _ => 0
  | Nat.succ fuel, es =>
    (es.filter FSEntry.isFileE).length +
      ((((es.filter FSEntry.isDirE).eraseP (fun e => e.name == ".git")).map
        (fun e => pureScanTotal fuel e.childrenOf)).sum)

/-- Fuel-bounded list of the rule sets the scan pass registers, cache-free:
one per `.gitignore` file discovered outside pruned `.git` subtrees, keyed
by its directory, in discovery order. -/
def pureSpecs (compile : Compile) : Nat → AbsPath → List FSEntry → List (AbsPath × Spec)
  | 0, _, _ => []
  | Nat.succ fuel, path, es =>
    (match (es.filter FSEntry.isFileE).find? (fun e => e.name == ".gitignore") with
     | some f => [(path, compile f.contentOf)]
     | none => []) ++
    ((((es.filter FSEntry.isDirE).eraseP (fun e => e.name == ".git")).map
      (fun e => pureSpecs compile fuel (path ++ [e.name]) e.childrenOf)).flatten)

/-- Fuel-bounded list of the paths the scan pass records in
`excluded_paths`: the `.git` child of every visited directory that has
one. -/
def pureGitPaths : Nat → AbsPath → List FSEntry → List AbsPath
  | 0, _, _ => []
  | Nat.succ fuel, path, es =>
    (if (es.filter FSEntry.isDirE).any (fun e => e.name == ".git") then [path ++ [".git"]]
     else []) ++
    ((((es.filter FSEntry.isDirE).eraseP (fun e => e.name == ".git")).map
      (fun e => pureGitPaths fuel (path ++ [e.name]) e.childrenOf)).flatten)

/-- The admitted files of one frame of the write walk: frame files that no
rule set matches, paired with their absolute paths, in listing order. -/
def candOf (specs : List (AbsPath × Spec)) (path : AbsPath) (fs : List FSEntry) :
    List (AbsPath × FSEntry) :=
  (fs.filter (fun f => !rulesMatch specs (path ++ [f.name]))).map (fun f => (path ++ [f.name], f))

/-- Fuel-bounded candidate files of the write walk, cache-free: files of
each reached frame that no rule set matches, in walk order (frame files
first, then the kept subtrees); a directory is descended into exactly when
`excludedPure` rejects it. -/
def pureCand (specs : List (AbsPath × Spec)) : Nat → AbsPath → List FSEntry → List (AbsPath × FSEntry)
  | 0, _, _ => []
  | Nat.succ fuel, path, es =>
    candOf specs path (es.filter FSEntry.isFileE) ++
    ((((es.filter FSEntry.isDirE).filter
        (fun d => !excludedPure specs (path ++ [d.name]) true)).map
      (fun d => pureCand specs fuel (path ++ [d.name]) d.childrenOf)).flatten)

/-- Candidates whose `tar.add` succeeds: the files that end up in the
archive. -/
def addedOf (env : Env) (cand : List (AbsPath × FSEntry)) : List (AbsPath × FSEntry) :=
  cand.filter (fun c => !env.addFail c.1)

/-- Added files whose metadata step also succeeds: the files counted as
processed (in verbose mode the manifest entries). -/
def processedOf (env : Env) (cand : List (AbsPath × FSEntry)) : List (AbsPath × FSEntry) :=
  (addedOf env cand).filter (fun c => !(env.verbose && env.metaFail c.1))

/-- The manifest line of one processed file. -/
def lineOf (H : HashModel α) (env : Env) (c : AbsPath × FSEntry) : String :=
  manifestLine (relpathStr c.1 env.src.dropLast) c.2.contentOf.length c.2.mtimeOf
    (calculate_checksum H c.2.contentOf)

/-- Shallow embedding of `GitAwareBackup._get_extension` (main.py lines
67-75). -/
def get_extension (compression : String) : String :=
  if compression.toLower = "gz" then ".gz"
  else if compression.toLower = "bz2" then ".bz2"
  else if compression.toLower = "xz" then ".xz"
  else if compression.toLower = "none" then ""
  else ".gz"

/-- The configuration a successful `__init__` leaves on the object. -/
structure ToolConfig where
  src : AbsPath
  output_file : String
  compression : String
  verbose : Bool

/-- Shallow embedding of `GitAwareBackup.__init__` (main.py lines 31-65).
`source` is `none` when `os.path.isdir` is false for the source path
(missing, or not a directory), `some es` when it is a directory with listing
`es`; `stamp` models the `datetime.now().strftime` default-name timestamp.
The constructor performs no filesystem mutation: it either raises
`ValueError` or returns the configuration. -/
def gitAwareBackup_init (sourceDir : AbsPath) (source : Option (List FSEntry))
    (output_file : Option String) (compression : String) (verbose : Bool)
    (stamp : String) : Except String ToolConfig :=
  match source with
  | none =>
    Except.error ("Source directory '" ++ pathString sourceDir ++ "' does not exist")
  | some _ =>
    let out := match output_file with
      | none =>
        (sourceDir.getLast?.getD "") ++ "_" ++ stamp ++ ".tar" ++ get_extension compression
      | some o => o
    Except.ok { src := sourceDir, output_file := out, compression := compression,
                verbose := verbose }

/-- Observable disk state around one backup invocation: whether the scan
pass ran, whether the output archive file exists, and whether the temporary
manifest directory created by `tempfile.mkdtemp` exists. -/
structure Disk where
  scanRan : Bool
  outputExists : Bool
  tempDirExists : Bool
deriving Repr, DecidableEq

/-- The disk before anything happened. -/
def initialDisk : Disk :=
  { scanRan := false, outputExists := false, tempDirExists := false }

/-- Construction followed by the start of `create_backup`, at the disk
level: an invalid source makes `__init__` raise before the scan or any file
creation; a valid one reaches `create_backup` (whose disk effects the
failure model below describes). -/
def constructAndStart (sourceDir : AbsPath) (source : Option (List FSEntry))
    (output_file : Option String) (compression : String) (verbose : Bool)
    (stamp : String) : Disk × Except String ToolConfig :=
  match gitAwareBackup_init sourceDir source output_file compression verbose stamp with
  | Except.error m => (initialDisk, Except.error m)
  | Except.ok cfg => ({ initialDisk with scanRan := true }, Except.ok cfg)

/-- Where a fatal exception strikes inside `create_backup`'s `try` block:
at `tempfile.mkdtemp` itself, at `tarfile.open` (e.g. unwritable output
path), during the write walk, or at finalization (after the output file was
created). -/
inductive FatalPoint where
  | atMkdtemp
  | atOpen
  | atWrite
  | atFinalize
deriving Repr, DecidableEq

/-- Whether the temporary manifest directory existed when the exception
struck (`mkdtemp` is the first statement of the `try`). -/
def tempCreatedAt : FatalPoint → Bool
  | .atMkdtemp => false
  | _ => true

/-- Whether the output archive file existed when the exception struck. -/
def outputCreatedAt : FatalPoint → Bool
  | .atMkdtemp => false
  | .atOpen => false
  | _ => true

/-- Shallow embedding of `create_backup`'s exception handler (main.py lines
221-230): log the error, best-effort `os.remove` of the partial output file
(whose own failure the inner `except: pass` swallows), and a bare `raise` of
the original exception.  The temporary manifest directory is not touched
here: the `shutil.rmtree` cleanup at line 205 lies on the success path
only. -/
def fatalOutcome (p : FatalPoint) (e : String) (removeOk : Bool) :
    Disk × Except String String :=
  let d0 : Disk :=
    { scanRan := true, outputExists := outputCreatedAt p,
      tempDirExists := tempCreatedAt p }
  let d1 := if d0.outputExists then
      (if removeOk then { d0 with outputExists := false } else d0)
    else d0
  (d1, Except.error e)

/-- Disk-level outcome of one `create_backup` call, success or fatal
failure: on success the temp directory is removed (line 205) and the archive
remains; on failure the handler of lines 221-230 runs. -/
def backupDiskOutcome (fatal : Option FatalPoint) (e : String) (removeOk : Bool)
    (outPath : String) : Disk × Except String String :=
  match fatal with
  | none =>
    ({ scanRan := true, outputExists := true, tempDirExists := false },
     Except.ok outPath)
  | some p => fatalOutcome p e removeOk

/-- Decode ASCII byte values to a string. -/
def decodeAscii (bs : Bytes) : String :=
  String.mk (bs.map Char.ofNat)

def splitCharAux (sep : Char) : List Char → List Char → List String
  | [], acc => [String.mk acc.reverse]
  | c :: cs, acc =>
    if c = sep then String.mk acc.reverse :: splitCharAux sep cs []
    else splitCharAux sep cs (c :: acc)

/-- Split a string at a separator character (the fragment of `str.splitOn`
the concrete examples need). -/
def splitChar (sep : Char) (s : String) : List String :=
  splitCharAux sep s.data []

/-- Compilation of a pattern file of literal name patterns, one per line:
the fragment of `pathspec` gitwildmatch semantics the concrete examples
use.  A literal pattern without slash or wildcard matches a path exactly
when one of the path's components equals the pattern. -/
def literalCompile : Compile := fun bs rel =>
  ((splitChar '\n' (decodeAscii bs)).filter (fun l => l ≠ "")).any
    (fun pat => (splitChar '/' rel).contains pat)

/-- The spec's scope for a rule set: its base directory is an ancestor of
the path, or the path's own directory — a component-wise prefix of the
path's directory. -/
def isAncestorBaseOf (base path : AbsPath) : Bool :=
  List.isPrefixOf base path.dropLast

/-- A concatenating toy streaming hash standing in for `hashlib.sha256` in
the concrete runs: it satisfies the update-concatenation laws. -/
def listHash : HashModel Bytes :=
  { init := [], upd := fun a b => a ++ b, hex := fun a => toString a }

/-- Demo tree: `/src/foo/.gitignore` holding the single pattern `x.txt`,
and `/src/foobar/x.txt` (bytes are ASCII codes). -/
def demoTree1 : List FSEntry :=
  [FSEntry.dir "foo" [FSEntry.file ".gitignore" [120, 46, 116, 120, 116] "t0"],
   FSEntry.dir "foobar" [FSEntry.file "x.txt" [104, 105] "t1"]]

/-- The state after the scan pass over `demoTree1` rooted at `/src`. -/
def demoStC1 : BkState :=
  scan_directory literalCompile 9 ["src"] demoTree1 initState

/-- Demo tree: a single file `a.txt`. -/
def demoTree2 : List FSEntry := [FSEntry.file "a.txt" [97] "t2"]

/-- Demo tree: two files `a.txt` and `bad.txt`. -/
def demoTree3 : List FSEntry :=
  [FSEntry.file "a.txt" [97] "t3", FSEntry.file "bad.txt" [98] "t4"]

/-- Demo tree: a `.git` directory (holding a config file and a nested
`.gitignore`) next to a regular file. -/
def demoTree4 : List FSEntry :=
  [FSEntry.dir ".git"
     [FSEntry.file "config" [99] "t5", FSEntry.file ".gitignore" [42] "t6"],
   FSEntry.file "a.txt" [97] "t7"]

/-- A verbose run in which every per-file metadata step raises. -/
def demoEnvMeta : Env :=
  { compile := literalCompile, addFail := fun _ => false,
    metaFail := fun _ => true, verbose := true, src := ["src"] }

/-- A fully successful verbose run rooted at `/s/root`. -/
def demoEnvOk : Env :=
  { compile := literalCompile, addFail := fun _ => false,
    metaFail := fun _ => false, verbose := true, src := ["s", "root"] }

/-- A run in which `tar.add` raises on `/s/root/bad.txt` only. -/
def demoEnvAdd : Env :=
  { compile := literalCompile, addFail := fun p => p == ["s", "root", "bad.txt"],
    metaFail := fun _ => false, verbose := false, src := ["s", "root"] }

/-- The compiled behavior of the gitwildmatch pattern file `a` + `!a/b.txt`:
the directory `a` and everything under it match, except that the negation
pattern exempts `a/b.txt` itself. -/
def negCompile : Compile := fun _ rel =>
  (splitChar '/' rel).contains "a" && !(rel == "a/b.txt")

/-- Demo tree: `/s/root/.gitignore` holding `a` + `!a/b.txt` (ASCII bytes),
and the directory `a` with the single file `b.txt` inside. -/
def demoTree5 : List FSEntry :=
  [FSEntry.file ".gitignore" [97, 10, 33, 97, 47, 98, 46, 116, 120, 116] "t8",
   FSEntry.dir "a" [FSEntry.file "b.txt" [98] "t9"]]

/-- A fully successful non-verbose run rooted at `/s/root` whose rule sets
compile with negation-pattern (non-hereditary) semantics. -/
def demoEnvNeg : Env :=
  { compile := negCompile, addFail := fun _ => false,
    metaFail := fun _ => false, verbose := false, src := ["s", "root"] }

/-- The fields of the state other than the exclusion cache, bundled for the
frame lemmas. -/
def coreOf (st : BkState) :
    List (AbsPath × Spec) × Nat × Nat × List (List String) × List String × List (Nat × Nat) :=
  (st.gitignore_specs, st.total_files, st.processed_files, st.archive, st.manifest, st.divisions)

theorem should_exclude_core (p : AbsPath) (b : Bool) (st : BkState) :
    coreOf (should_exclude p b st).2 = coreOf st := by
  unfold should_exclude
  split
  · rfl
  · split
    · rfl
    · split <;> rfl

theorem should_exclude_fst (p : AbsPath) (b : Bool) (st : BkState) :
    (should_exclude p b st).1 =
      (decide (p ∈ st.excluded_paths) || excludedPure st.gitignore_specs p b) := by
  unfold should_exclude excludedPure rulesMatch
  split
  · rename_i h
    simp [h]
  · rename_i h
    split
    · rename_i hgit
      simp [h, hgit]
    · rename_i hgit
      split
      · rename_i ds hfind
        have hmem := List.mem_of_find?_eq_some hfind
        have hpred := List.find?_some hfind
        rw [Bool.and_eq_true] at hpred
        simp [h, hgit]
        exact ⟨ds.1, ds.2, hmem, hpred.1, hpred.2⟩
      · rename_i hfind
        rw [List.find?_eq_none] at hfind
        simp [h, hgit]
        intro d1 d2 hds hstart
        simpa [hstart] using hfind (d1, d2) hds

theorem should_exclude_cache (p : AbsPath) (b : Bool) (st : BkState) (q : AbsPath) :
    q ∈ (should_exclude p b st).2.excluded_paths ↔
      q ∈ st.excluded_paths ∨ (q = p ∧ excludedPure st.gitignore_specs p b = true) := by
  unfold should_exclude
  split
  · rename_i h
    simp only []
    constructor
    · intro hq; exact Or.inl hq
    · rintro (hq | ⟨rfl, _⟩)
      · exact hq
      · exact h
  · rename_i h
    split
    · rename_i hgit
      simp only [addPath]
      have hpure : excludedPure st.gitignore_specs p b = true := by
        unfold excludedPure; simp [hgit]
      split
      · rename_i hin
        constructor
        · intro hq; exact Or.inl hq
        · rintro (hq | ⟨rfl, _⟩)
          · exact hq
          · exact hin
      · simp only [List.mem_cons]
        constructor
        · rintro (rfl | hq)
          · exact Or.inr ⟨rfl, hpure⟩
          · exact Or.inl hq
        · rintro (hq | ⟨rfl, _⟩)
          · exact Or.inr hq
          · exact Or.inl rfl
    · rename_i hgit
      split
      · rename_i ds hfind
        have hmem := List.mem_of_find?_eq_some hfind
        have hpred := List.find?_some hfind
        have hpure : excludedPure st.gitignore_specs p b = true := by
          unfold excludedPure rulesMatch
          rw [Bool.and_eq_true] at hpred
          simp
          exact Or.inr ⟨ds.1, ds.2, hmem, hpred.1, hpred.2⟩
        simp only [addPath]
        split
        · rename_i hin
          constructor
          · intro hq; exact Or.inl hq
          · rintro (hq | ⟨rfl, _⟩)
            · exact hq
            · exact hin
        · simp only [List.mem_cons]
          constructor
          · rintro (rfl | hq)
            · exact Or.inr ⟨rfl, hpure⟩
            · exact Or.inl hq
          · rintro (hq | ⟨rfl, _⟩)
            · exact Or.inr hq
            · exact Or.inl rfl
      · rename_i hfind
        rw [List.find?_eq_none] at hfind
        have hpure : excludedPure st.gitignore_specs p b = false := by
          unfold excludedPure rulesMatch
          simp [hgit]
          intro d1 d2 hds hstart
          simpa [hstart] using hfind (d1, d2) hds
        simp only []
        constructor
        · intro hq; exact Or.inl hq
        · rintro (hq | ⟨rfl, hp⟩)
          · exact hq
          · rw [hpure] at hp; cases hp

theorem findName_of_mem {e : FSEntry} :
    ∀ {es : List FSEntry}, e ∈ es → nodupB (es.map FSEntry.name) = true →
      findName e.name es = some e := by
  intro es
  induction es with
  | nil => intro h; cases h
  | cons e' rest ih =>
    intro hmem hnd
    simp only [List.map_cons, nodupB, Bool.and_eq_true, Bool.not_eq_true'] at hnd
    rcases List.mem_cons.mp hmem with rfl | hmem'
    · simp [findName]
    · have hne : (e'.name == e.name) = false := by
        rw [beq_eq_false_iff_ne]
        intro heq
        have h1 : e.name ∈ rest.map FSEntry.name := List.mem_map_of_mem _ hmem'
        rw [← heq] at h1
        have h2 : (rest.map FSEntry.name).contains e'.name = true := by
          unfold List.contains
          exact List.elem_eq_true_of_mem h1
        rw [hnd.1] at h2
        cases h2
      simp only [findName, List.find?_cons, hne]
      exact ih hmem' hnd.2

theorem entryAt_append {tree : List FSEntry} :
    ∀ {rel : List String} {es : List FSEntry}, forestAt tree rel = some es →
      ∀ x, entryAt tree (rel ++ [x]) = findName x es := by
  suffices h : ∀ (rel : List String) (t es : List FSEntry), forestAt t rel = some es →
      ∀ x, entryAt t (rel ++ [x]) = findName x es by
    intro rel es hf x; exact h rel tree es hf x
  intro rel
  induction rel with
  | nil =>
    intro t es hf x
    simp only [forestAt] at hf
    cases hf
    simp [entryAt]
  | cons n r ih =>
    intro t es hf x
    simp only [forestAt] at hf
    cases hfind : findName n t with
    | none => rw [hfind] at hf; cases hf
    | some e =>
      rw [hfind] at hf
      cases e with
      | file nm c m => cases hf
      | dir nm cs =>
        have : entryAt t ((n :: r) ++ [x]) = entryAt cs (r ++ [x]) := by
          cases r with
          | nil => simp [entryAt, hfind]
          | cons y ys => simp [entryAt, hfind]
        rw [this]
        exact ih cs es hf x

theorem forestAt_append {tree : List FSEntry} :
    ∀ {rel : List String} {es : List FSEntry}, forestAt tree rel = some es →
      ∀ {x : String} {nm : String} {cs : List FSEntry},
        findName x es = some (FSEntry.dir nm cs) →
        forestAt tree (rel ++ [x]) = some cs := by
  suffices h : ∀ (rel : List String) (t es : List FSEntry), forestAt t rel = some es →
      ∀ (x nm : String) (cs : List FSEntry), findName x es = some (FSEntry.dir nm cs) →
        forestAt t (rel ++ [x]) = some cs by
    intro rel es hf x nm cs hfind; exact h rel tree es hf x nm cs hfind
  intro rel
  induction rel with
  | nil =>
    intro t es hf x nm cs hfind
    simp only [forestAt] at hf
    cases hf
    simp [forestAt, hfind]
  | cons n r ih =>
    intro t es hf x nm cs hfind
    simp only [forestAt] at hf
    cases hfind' : findName n t with
    | none => rw [hfind'] at hf; cases hf
    | some e =>
      rw [hfind'] at hf
      cases e with
      | file nm' c m => cases hf
      | dir nm' cs' =>
        have : forestAt t ((n :: r) ++ [x]) = forestAt cs' (r ++ [x]) := by
          simp [forestAt, hfind']
        rw [this]
        exact ih cs' es hf x nm cs hfind

theorem not_isDirAt_and_isFileAt {tree : List FSEntry} {r : List String} :
    isDirAtB tree r = true → isFileAtB tree r = true → False := by
  unfold isDirAtB isFileAtB
  cases entryAt tree r with
  | none => intro h; cases h
  | some e => cases e <;> simp [FSEntry.isDirE, FSEntry.isFileE]

theorem should_exclude_dir_char {tree : List FSEntry} {src : AbsPath}
    {specs : List (AbsPath × Spec)} {st : BkState} {r : List String}
    (hspecs : st.gitignore_specs = specs)
    (hc : CacheOK tree src specs st.excluded_paths)
    (hdir : isDirAtB tree r = true) :
    (should_exclude (src ++ r) true st).1 = excludedPure specs (src ++ r) true ∧
      CacheOK tree src specs (should_exclude (src ++ r) true st).2.excluded_paths := by
  constructor
  · rw [should_exclude_fst, hspecs]
    by_cases hmem : (src ++ r) ∈ st.excluded_paths
    · rcases hc _ hmem with hrm | ⟨r', _, hlast, _⟩
      · simp [hmem]
        unfold excludedPure
        simp [hrm]
      · simp [hmem]
        unfold excludedPure
        simp [hlast]
    · simp [hmem]
  · intro q hq
    rw [should_exclude_cache] at hq
    rcases hq with hq | ⟨rfl, hpure⟩
    · exact hc q hq
    · rw [hspecs] at hpure
      unfold excludedPure at hpure
      rcases Bool.or_eq_true_iff.mp hpure with hgit | hrm
      · rw [Bool.and_eq_true] at hgit
        exact Or.inr ⟨r, rfl, by simpa using hgit.1, hdir⟩
      · exact Or.inl hrm

theorem should_exclude_file_char {tree : List FSEntry} {src : AbsPath}
    {specs : List (AbsPath × Spec)} {st : BkState} {r : List String}
    (hspecs : st.gitignore_specs = specs)
    (hc : CacheOK tree src specs st.excluded_paths)
    (hfile : isFileAtB tree r = true) :
    (should_exclude (src ++ r) false st).1 = rulesMatch specs (src ++ r) ∧
      CacheOK tree src specs (should_exclude (src ++ r) false st).2.excluded_paths := by
  constructor
  · rw [should_exclude_fst, hspecs]
    by_cases hmem : (src ++ r) ∈ st.excluded_paths
    · rcases hc _ hmem with hrm | ⟨r', hp, _, hdir'⟩
      · simp [hmem, hrm]
      · have : r' = r := List.append_cancel_left hp.symm
        rw [this] at hdir'
        exact (not_isDirAt_and_isFileAt hdir' hfile).elim
    · simp [hmem]
      unfold excludedPure
      simp
  · intro q hq
    rw [should_exclude_cache] at hq
    rcases hq with hq | ⟨rfl, hpure⟩
    · exact hc q hq
    · rw [hspecs] at hpure
      unfold excludedPure at hpure
      simp only [Bool.and_false, Bool.false_or] at hpure
      exact Or.inl hpure

theorem should_exclude_fields (p : AbsPath) (b : Bool) (st : BkState) :
    (should_exclude p b st).2.gitignore_specs = st.gitignore_specs ∧
      (should_exclude p b st).2.total_files = st.total_files ∧
      (should_exclude p b st).2.processed_files = st.processed_files ∧
      (should_exclude p b st).2.archive = st.archive ∧
      (should_exclude p b st).2.manifest = st.manifest ∧
      (should_exclude p b st).2.divisions = st.divisions := by
  unfold should_exclude
  split
  · exact ⟨rfl, rfl, rfl, rfl, rfl, rfl⟩
  · split
    · exact ⟨rfl, rfl, rfl, rfl, rfl, rfl⟩
    · split <;> exact ⟨rfl, rfl, rfl, rfl, rfl, rfl⟩

theorem pruneDirs_fields (path : AbsPath) :
    ∀ (ds : List FSEntry) (st : BkState),
      (pruneDirs path ds st).2.gitignore_specs = st.gitignore_specs ∧
        (pruneDirs path ds st).2.total_files = st.total_files ∧
        (pruneDirs path ds st).2.processed_files = st.processed_files ∧
        (pruneDirs path ds st).2.archive = st.archive ∧
        (pruneDirs path ds st).2.manifest = st.manifest ∧
        (pruneDirs path ds st).2.divisions = st.divisions := by
  intro ds
  induction ds with
  | nil => intro st; exact ⟨rfl, rfl, rfl, rfl, rfl, rfl⟩
  | cons e rest ih =>
    intro st
    have h1 := should_exclude_fields (path ++ [e.name]) true st
    have h2 := ih (should_exclude (path ++ [e.name]) true st).2
    simp only [pruneDirs]
    exact ⟨h2.1.trans h1.1, h2.2.1.trans h1.2.1, h2.2.2.1.trans h1.2.2.1,
      h2.2.2.2.1.trans h1.2.2.2.1, h2.2.2.2.2.1.trans h1.2.2.2.2.1,
      h2.2.2.2.2.2.trans h1.2.2.2.2.2⟩

theorem pruneDirs_kept {tree : List FSEntry} {src : AbsPath}
    {specs : List (AbsPath × Spec)} {r : List String} :
    ∀ {ds : List FSEntry} {st : BkState},
      st.gitignore_specs = specs →
      CacheOK tree src specs st.excluded_paths →
      (∀ e ∈ ds, isDirAtB tree (r ++ [e.name]) = true) →
      (pruneDirs (src ++ r) ds st).1 =
          ds.filter (fun e => !excludedPure specs (src ++ r ++ [e.name]) true) ∧
        CacheOK tree src specs (pruneDirs (src ++ r) ds st).2.excluded_paths := by
  intro ds
  induction ds with
  | nil =>
    intro st _ h2 _
    exact ⟨rfl, h2⟩
  | cons e rest ih =>
    intro st h1 h2 h3
    have hpos : isDirAtB tree (r ++ [e.name]) = true := h3 e (List.mem_cons_self _ _)
    have hchar := should_exclude_dir_char (r := r ++ [e.name]) h1 h2 hpos
    have hchar1 : (should_exclude (src ++ r ++ [e.name]) true st).1 =
        excludedPure specs (src ++ r ++ [e.name]) true := by
      rw [List.append_assoc]
      exact hchar.1
    have hchar2 : CacheOK tree src specs
        (should_exclude (src ++ r ++ [e.name]) true st).2.excluded_paths := by
      rw [List.append_assoc]
      exact hchar.2
    have hfields := should_exclude_fields ((src ++ r) ++ [e.name]) true st
    have h1' : (should_exclude ((src ++ r) ++ [e.name]) true st).2.gitignore_specs = specs :=
      hfields.1.trans h1
    have hrest := ih h1' hchar2
      (fun x hx => h3 x (List.mem_cons_of_mem _ hx))
    simp only [pruneDirs, List.filter_cons]
    by_cases hex : excludedPure specs (src ++ r ++ [e.name]) true = true
    · rw [hchar1, hex]
      refine ⟨?_, hrest.2⟩
      simp [hrest.1]
      simp only [← List.append_assoc]
      exact hrest.1
    · rw [Bool.not_eq_true] at hex
      rw [hchar1, hex]
      refine ⟨?_, hrest.2⟩
      simp [hrest.1]
      simp only [← List.append_assoc]
      exact hrest.1

theorem processFile_fields (H : HashModel α) (env : Env) (fp : AbsPath) (f : FSEntry)
    (st : BkState) :
    (processFile H env fp f st).gitignore_specs = st.gitignore_specs ∧
      (processFile H env fp f st).excluded_paths = st.excluded_paths ∧
      (processFile H env fp f st).total_files = st.total_files := by
  unfold processFile
  split_ifs <;> simp <;> (try split_ifs) <;> (try simp)

/-- The effect of one admitted file on the observable fields, split by the
failure oracles. -/
theorem processFile_char (H : HashModel α) (env : Env) (fp : AbsPath) (f : FSEntry)
    (st : BkState) :
    (env.addFail fp = true → processFile H env fp f st = st) ∧
      (env.addFail fp = false → env.verbose = true → env.metaFail fp = true →
        processFile H env fp f st =
          { st with archive := st.archive ++ [relpathComps fp env.src.dropLast] }) ∧
      (env.addFail fp = false → (env.verbose = true → env.metaFail fp = false) →
        (processFile H env fp f st).archive = st.archive ++ [relpathComps fp env.src.dropLast] ∧
          (processFile H env fp f st).manifest = st.manifest ++
            (if env.verbose then [lineOf H env (fp, f)] else []) ∧
          (processFile H env fp f st).processed_files = st.processed_files + 1 ∧
          (∃ ds, (processFile H env fp f st).divisions = st.divisions ++ ds ∧
            ∀ d ∈ ds, d.1 = st.processed_files + 1 ∧ d.2 = st.total_files)) := by
  refine ⟨?_, ?_, ?_⟩
  · intro ha
    unfold processFile
    rw [ha]
    simp
  · intro ha hv hm
    unfold processFile
    rw [ha, hv, hm]
    simp
  · intro ha hnm
    unfold processFile
    rw [ha]
    simp only [Bool.false_eq_true, if_false]
    by_cases hv : env.verbose = true
    · rw [hv, hnm hv]
      simp only [Bool.and_false, Bool.false_eq_true, if_false, if_true]
      split
      · exact ⟨rfl, by simp [lineOf, hv], rfl,
          ⟨[(st.processed_files + 1, st.total_files)], rfl, by
            intro d hd
            simp at hd
            simp [hd]⟩⟩
      · exact ⟨rfl, by simp [lineOf, hv], rfl, ⟨[], by simp, by intro d hd; cases hd⟩⟩
    · rw [Bool.not_eq_true] at hv
      rw [hv]
      simp only [Bool.false_and, Bool.false_eq_true, if_false]
      split
      · exact ⟨rfl, by simp, rfl,
          ⟨[(st.processed_files + 1, st.total_files)], rfl, by
            intro d hd
            simp at hd
            simp [hd]⟩⟩
      · exact ⟨rfl, by simp, rfl, ⟨[], by simp, by intro d hd; cases hd⟩⟩

/-- Characterization of the file loop of one frame: the specs and total are
untouched, the archive gains the admitted files whose add succeeded, the
manifest gains (in verbose mode) the lines of the fully processed files, the
processed counter advances by their number, recorded divisions have the
processed counter as numerator and the total as denominator, and the cache
invariant is preserved. -/
theorem filesPhase_char {tree : List FSEntry} {α : Type} (H : HashModel α) (env : Env)
    {specs : List (AbsPath × Spec)} {r : List String} :
    ∀ {fs : List FSEntry} {st : BkState},
      st.gitignore_specs = specs →
      CacheOK tree env.src specs st.excluded_paths →
      (∀ f ∈ fs, isFileAtB tree (r ++ [f.name]) = true) →
      (filesPhase H env (env.src ++ r) fs st).gitignore_specs = specs ∧
        (filesPhase H env (env.src ++ r) fs st).total_files = st.total_files ∧
        CacheOK tree env.src specs (filesPhase H env (env.src ++ r) fs st).excluded_paths ∧
        (filesPhase H env (env.src ++ r) fs st).archive =
          st.archive ++ (addedOf env (candOf specs (env.src ++ r) fs)).map
            (fun c => relpathComps c.1 env.src.dropLast) ∧
        (filesPhase H env (env.src ++ r) fs st).manifest =
          st.manifest ++ (if env.verbose then
            (processedOf env (candOf specs (env.src ++ r) fs)).map (lineOf H env) else []) ∧
        (filesPhase H env (env.src ++ r) fs st).processed_files =
          st.processed_files + (processedOf env (candOf specs (env.src ++ r) fs)).length ∧
        (∃ ds, (filesPhase H env (env.src ++ r) fs st).divisions = st.divisions ++ ds ∧
          ∀ d ∈ ds, st.processed_files < d.1 ∧
            d.1 ≤ (filesPhase H env (env.src ++ r) fs st).processed_files ∧
            d.2 = st.total_files) := by
  intro fs
  induction fs with
  | nil =>
    intro st h1 h2 _
    refine ⟨h1, rfl, h2, by simp [filesPhase, candOf, addedOf],
      by simp [filesPhase, candOf, addedOf, processedOf],
      by simp [filesPhase, candOf, addedOf, processedOf],
      ⟨[], by simp [filesPhase], by intro d hd; cases hd⟩⟩
  | cons f rest ih =>
    intro st h1 h2 h3
    have hpos : isFileAtB tree (r ++ [f.name]) = true := h3 f (List.mem_cons_self _ _)
    have hchar := should_exclude_file_char (r := r ++ [f.name]) h1 h2 hpos
    have hchar1 : (should_exclude (env.src ++ r ++ [f.name]) false st).1 =
        rulesMatch specs (env.src ++ r ++ [f.name]) := by
      rw [List.append_assoc]
      exact hchar.1
    have hchar2 : CacheOK tree env.src specs
        (should_exclude (env.src ++ r ++ [f.name]) false st).2.excluded_paths := by
      rw [List.append_assoc]
      exact hchar.2
    have hfields := should_exclude_fields ((env.src ++ r) ++ [f.name]) false st
    simp only [filesPhase]
    set q2 := (should_exclude ((env.src ++ r) ++ [f.name]) false st).2 with hq2
    by_cases hrm : rulesMatch specs (env.src ++ r ++ [f.name]) = true
    · -- the file is excluded by the rules: skipped entirely
      have hcond : (should_exclude (env.src ++ r ++ [f.name]) false st).1 = true := by
        rw [hchar1]; exact hrm
      rw [if_pos hcond]
      have hrest := @ih q2 (hfields.1.trans h1) hchar2
        (fun x hx => h3 x (List.mem_cons_of_mem _ hx))
      have hrm' : rulesMatch specs (env.src ++ (r ++ [f.name])) = true := by
        rw [← List.append_assoc]; exact hrm
      have hskip : candOf specs (env.src ++ r) (f :: rest) =
          candOf specs (env.src ++ r) rest := by
        simp [candOf, List.filter_cons, hrm']
      rw [hskip]
      refine ⟨hrest.1, hrest.2.1.trans hfields.2.1, hrest.2.2.1, ?_, ?_, ?_, ?_⟩
      · rw [hrest.2.2.2.1, hfields.2.2.2.1]
      · rw [hrest.2.2.2.2.1, hfields.2.2.2.2.1]
      · rw [hrest.2.2.2.2.2.1, hfields.2.2.1]
      · obtain ⟨ds, hds, hbound⟩ := hrest.2.2.2.2.2.2
        refine ⟨ds, by rw [hds, hfields.2.2.2.2.2], ?_⟩
        intro d hd
        obtain ⟨hb1, hb2, hb3⟩ := hbound d hd
        rw [hfields.2.2.1] at hb1
        rw [hfields.2.1] at hb3
        exact ⟨hb1, hb2, hb3⟩
    · -- the file is admitted: processFile runs, then the rest of the loop
      rw [Bool.not_eq_true] at hrm
      have hcond : ¬ (should_exclude (env.src ++ r ++ [f.name]) false st).1 = true := by
        rw [hchar1, hrm]; simp
      rw [if_neg hcond]
      set st2 := processFile H env ((env.src ++ r) ++ [f.name]) f q2 with hst2
      have hpf := processFile_fields H env ((env.src ++ r) ++ [f.name]) f q2
      have hrest := @ih st2
        (hpf.1.trans (hfields.1.trans h1))
        (by rw [hpf.2.1]; exact hchar2)
        (fun x hx => h3 x (List.mem_cons_of_mem _ hx))
      have hrm' : rulesMatch specs (env.src ++ (r ++ [f.name])) = false := by
        rw [← List.append_assoc]; exact hrm
      have hcons : candOf specs (env.src ++ r) (f :: rest) =
          ((env.src ++ r) ++ [f.name], f) :: candOf specs (env.src ++ r) rest := by
        simp [candOf, List.filter_cons, hrm']
      rw [hcons]
      have hpc := processFile_char H env ((env.src ++ r) ++ [f.name]) f q2
      by_cases ha : env.addFail ((env.src ++ r) ++ [f.name]) = true
      · -- tar.add failed: nothing recorded for this file
        have ha2 : env.addFail (env.src ++ (r ++ [f.name])) = true := by
          rw [← List.append_assoc]; exact ha
        have hid : st2 = q2 := hpc.1 ha
        have haddskip : addedOf env (((env.src ++ r) ++ [f.name], f) ::
            candOf specs (env.src ++ r) rest) = addedOf env (candOf specs (env.src ++ r) rest) := by
          simp [addedOf, List.filter_cons, ha2]
        have hprocskip : processedOf env (((env.src ++ r) ++ [f.name], f) ::
            candOf specs (env.src ++ r) rest) =
            processedOf env (candOf specs (env.src ++ r) rest) := by
          unfold processedOf
          rw [haddskip]
        refine ⟨hrest.1, ?_, hrest.2.2.1, ?_, ?_, ?_, ?_⟩
        · rw [hrest.2.1, hid, hfields.2.1]
        · rw [hrest.2.2.2.1, hid, hfields.2.2.2.1, haddskip]
        · rw [hrest.2.2.2.2.1, hid, hfields.2.2.2.2.1, hprocskip]
        · rw [hrest.2.2.2.2.2.1, hid, hfields.2.2.1, hprocskip]
        · obtain ⟨ds, hds, hbound⟩ := hrest.2.2.2.2.2.2
          refine ⟨ds, by rw [hds, hid, hfields.2.2.2.2.2], ?_⟩
          intro d hd
          obtain ⟨hb1, hb2, hb3⟩ := hbound d hd
          rw [hid, hfields.2.2.1] at hb1
          rw [hid, hfields.2.1] at hb3
          exact ⟨hb1, hb2, hb3⟩
      · rw [Bool.not_eq_true] at ha
        have ha2 : env.addFail (env.src ++ (r ++ [f.name])) = false := by
          rw [← List.append_assoc]; exact ha
        have haddcons : addedOf env (((env.src ++ r) ++ [f.name], f) ::
            candOf specs (env.src ++ r) rest) =
            ((env.src ++ r) ++ [f.name], f) :: addedOf env (candOf specs (env.src ++ r) rest) := by
          simp [addedOf, List.filter_cons, ha2]
        by_cases hm : env.verbose = true ∧ env.metaFail ((env.src ++ r) ++ [f.name]) = true
        · -- added but the metadata step failed: in the archive, not processed
          have hm2 : env.metaFail (env.src ++ (r ++ [f.name])) = true := by
            rw [← List.append_assoc]; exact hm.2
          have hst2eq : st2 = { q2 with archive := q2.archive ++
              [relpathComps ((env.src ++ r) ++ [f.name]) env.src.dropLast] } :=
            hpc.2.1 ha hm.1 hm.2
          have hprocskip : processedOf env (((env.src ++ r) ++ [f.name], f) ::
              candOf specs (env.src ++ r) rest) =
              processedOf env (candOf specs (env.src ++ r) rest) := by
            rw [processedOf, haddcons, List.filter_cons]
            simp [hm.1, hm2, processedOf]
          refine ⟨hrest.1, ?_, hrest.2.2.1, ?_, ?_, ?_, ?_⟩
          · rw [hrest.2.1, hst2eq]
            exact hfields.2.1
          · rw [hrest.2.2.2.1, hst2eq, haddcons]
            simp [hfields.2.2.2.1]
          · rw [hrest.2.2.2.2.1, hst2eq, hprocskip]
            simp [hfields.2.2.2.2.1]
          · rw [hrest.2.2.2.2.2.1, hst2eq, hprocskip]
            simp [hfields.2.2.1]
          · obtain ⟨ds, hds, hbound⟩ := hrest.2.2.2.2.2.2
            refine ⟨ds, by rw [hds, hst2eq]; simp [hfields.2.2.2.2.2], ?_⟩
            intro d hd
            obtain ⟨hb1, hb2, hb3⟩ := hbound d hd
            rw [hst2eq] at hb1 hb3
            simp only [] at hb1 hb3
            rw [hfields.2.2.1] at hb1
            rw [hfields.2.1] at hb3
            exact ⟨hb1, hb2, hb3⟩
        · -- fully processed
          have hnm : env.verbose = true → env.metaFail ((env.src ++ r) ++ [f.name]) = false := by
            intro hv
            by_cases hmf : env.metaFail ((env.src ++ r) ++ [f.name]) = true
            · exact absurd ⟨hv, hmf⟩ hm
            · exact Bool.not_eq_true _ |>.mp hmf
          have hp3 := hpc.2.2 ha hnm
          have hproccons : processedOf env (((env.src ++ r) ++ [f.name], f) ::
              candOf specs (env.src ++ r) rest) =
              ((env.src ++ r) ++ [f.name], f) ::
                processedOf env (candOf specs (env.src ++ r) rest) := by
            rw [processedOf, haddcons, List.filter_cons]
            by_cases hv : env.verbose = true
            · have : env.metaFail (env.src ++ (r ++ [f.name])) = false := by
                rw [← List.append_assoc]; exact hnm hv
              simp [hv, this, processedOf]
            · rw [Bool.not_eq_true] at hv
              simp [hv, processedOf]
          refine ⟨hrest.1, ?_, hrest.2.2.1, ?_, ?_, ?_, ?_⟩
          · rw [hrest.2.1, hpf.2.2, hfields.2.1]
          · rw [hrest.2.2.2.1, hp3.1, hfields.2.2.2.1, haddcons]
            simp
          · rw [hrest.2.2.2.2.1, hp3.2.1, hfields.2.2.2.2.1, hproccons]
            by_cases hv : env.verbose = true <;> simp [hv]
          · rw [hrest.2.2.2.2.2.1, hp3.2.2.1, hfields.2.2.1, hproccons]
            simp
            omega
          · obtain ⟨ds1, hds1, hbound1⟩ := hp3.2.2.2
            obtain ⟨ds2, hds2, hbound2⟩ := hrest.2.2.2.2.2.2
            refine ⟨ds1 ++ ds2, ?_, ?_⟩
            · rw [hds2, hds1, hfields.2.2.2.2.2, List.append_assoc]
            · intro d hd
              have hfinal : (filesPhase H env (env.src ++ r) rest st2).processed_files =
                  st.processed_files + 1 +
                    (processedOf env (candOf specs (env.src ++ r) rest)).length := by
                rw [hrest.2.2.2.2.2.1, hp3.2.2.1, hfields.2.2.1]
              rcases List.mem_append.mp hd with hd1 | hd2
              · obtain ⟨hb1, hb2⟩ := hbound1 d hd1
                rw [hfields.2.2.1] at hb1
                rw [hfields.2.1] at hb2
                refine ⟨by omega, ?_, hb2⟩
                rw [hfinal]
                omega
              · obtain ⟨hb1, hb2, hb3⟩ := hbound2 d hd2
                rw [hp3.2.2.1, hfields.2.2.1] at hb1
                rw [hpf.2.2, hfields.2.1] at hb3
                exact ⟨by omega, hb2, hb3⟩

theorem wf_nodup {fuel : Nat} {es : List FSEntry} (h : wfForest (fuel + 1) es = true) :
    nodupB (es.map FSEntry.name) = true := by
  simp only [wfForest, Bool.and_eq_true] at h
  exact h.1

theorem wf_children {fuel : Nat} {es : List FSEntry} (h : wfForest (fuel + 1) es = true)
    {e : FSEntry} (he : e ∈ es) : wfForest fuel e.childrenOf = true := by
  simp only [wfForest, Bool.and_eq_true, List.all_eq_true] at h
  exact h.2 e he

theorem addedOf_append (env : Env) (a b : List (AbsPath × FSEntry)) :
    addedOf env (a ++ b) = addedOf env a ++ addedOf env b := by
  unfold addedOf
  exact List.filter_append _ _

theorem processedOf_append (env : Env) (a b : List (AbsPath × FSEntry)) :
    processedOf env (a ++ b) = processedOf env a ++ processedOf env b := by
  unfold processedOf
  rw [addedOf_append]
  exact List.filter_append _ _

/-- Every rule set the scan registers under a directory is keyed inside that
directory. -/
theorem pureSpecs_keys (compile : Compile) :
    ∀ (fuel : Nat) (path : AbsPath) (es : List FSEntry) (kv : AbsPath × Spec),
      kv ∈ pureSpecs compile fuel path es → path <+: kv.1 := by
  intro fuel
  induction fuel with
  | zero => intro path es kv h; cases h
  | succ fuel ih =>
    intro path es kv h
    simp only [pureSpecs, List.mem_append] at h
    rcases h with h | h
    · split at h
      · rcases List.mem_singleton.mp h with rfl
        exact List.prefix_rfl
      · cases h
    · rw [List.mem_flatten] at h
      obtain ⟨l, hl, hkv⟩ := h
      rw [List.mem_map] at hl
      obtain ⟨c, _, rfl⟩ := hl
      have := ih (path ++ [c.name]) c.childrenOf kv hkv
      exact List.IsPrefix.trans (List.prefix_append path [c.name]) this

/-- Every `.git` path the scan records is a real `.git` directory of the
tree. -/
theorem pureGitPaths_shape {tree : List FSEntry} {src : AbsPath} :
    ∀ (fuel : Nat) (rel : List String) (es : List FSEntry),
      wfForest fuel es = true →
      forestAt tree rel = some es →
      ∀ q ∈ pureGitPaths fuel (src ++ rel) es,
        ∃ rr, q = src ++ rr ∧ q.getLast? = some ".git" ∧ isDirAtB tree rr = true := by
  intro fuel
  induction fuel with
  | zero => intro rel es _ _ q hq; cases hq
  | succ fuel ih =>
    intro rel es hwf hforest q hq
    simp only [pureGitPaths, List.mem_append] at hq
    rcases hq with hq | hq
    · split at hq
      · rename_i hany
        rcases List.mem_singleton.mp hq with rfl
        rw [List.any_eq_true] at hany
        obtain ⟨g, hgmem, hgname⟩ := hany
        have hg : g ∈ es := List.Sublist.mem hgmem (List.filter_sublist es)
        have hgdir : g.isDirE = true := (List.mem_filter.mp hgmem).2
        have hgname' : g.name = ".git" := by simpa using hgname
        have hfind : findName ".git" es = some g := by
          rw [← hgname']
          exact findName_of_mem hg (wf_nodup hwf)
        have hentry : entryAt tree (rel ++ [".git"]) = some g :=
          (entryAt_append hforest ".git").trans hfind
        refine ⟨rel ++ [".git"], by rw [List.append_assoc], ?_, ?_⟩
        · rw [List.append_assoc]
          have : ((rel ++ [".git"]) : List String) ≠ [] := by simp
          rw [List.getLast?_append_of_ne_nil]
          · simp
          · simp
        · unfold isDirAtB
          rw [hentry]
          exact hgdir
      · cases hq
    · rw [List.mem_flatten] at hq
      obtain ⟨l, hl, hql⟩ := hq
      rw [List.mem_map] at hl
      obtain ⟨c, hc, rfl⟩ := hl
      have hc1 : c ∈ es.filter FSEntry.isDirE := List.Sublist.mem hc (List.eraseP_sublist _)
      have hc2 : c ∈ es := List.Sublist.mem hc1 (List.filter_sublist es)
      have hcdir : c.isDirE = true := (List.mem_filter.mp hc1).2
      obtain ⟨nm, cs, rfl⟩ : ∃ nm cs, c = FSEntry.dir nm cs := by
        cases c with
        | file _ _ _ => cases hcdir
        | dir nm cs => exact ⟨nm, cs, rfl⟩
      have hfind : findName (FSEntry.dir nm cs).name es = some (FSEntry.dir nm cs) :=
        findName_of_mem hc2 (wf_nodup hwf)
      have hforest' : forestAt tree (rel ++ [(FSEntry.dir nm cs).name]) = some cs :=
        forestAt_append hforest hfind
      have hwf' : wfForest fuel (FSEntry.dir nm cs).childrenOf = true := wf_children hwf hc2
      have := ih (rel ++ [(FSEntry.dir nm cs).name]) cs hwf' hforest' q
        (by
          rw [← List.append_assoc]
          exact (by simpa [FSEntry.childrenOf] using hql))
      exact this

theorem nodupB_sublist : ∀ {l1 l2 : List String}, List.Sublist l1 l2 → nodupB l2 = true → nodupB l1 = true := by
  intro l1 l2 h
  induction h with
  | slnil => intro h; exact h
  | cons a hsub ihs =>
    intro hnd
    simp only [nodupB, Bool.and_eq_true] at hnd
    exact ihs hnd.2
  | cons₂ a hsub ihs =>
    rename_i l1' l2'
    intro hnd
    simp only [nodupB, Bool.and_eq_true, Bool.not_eq_true'] at hnd ⊢
    refine ⟨?_, ihs hnd.2⟩
    by_cases hc : l1'.contains a = true
    · have h1 : a ∈ l1' := by
        unfold List.contains at hc
        exact List.mem_of_elem_eq_true hc
      have h2 : a ∈ l2' := List.Sublist.mem h1 hsub
      have h3 : l2'.contains a = true := by
        unfold List.contains
        exact List.elem_eq_true_of_mem h2
      rw [hnd.1] at h3
      cases h3
    · rw [Bool.not_eq_true] at hc
      exact hc

theorem prefix_sibling_disjoint {p : List String} {a b : String} {k : List String}
    (hne : a ≠ b) (h : (p ++ [a]) <+: k) : ¬ ((p ++ [b]) <+: k) := by
  intro h2
  obtain ⟨t, rfl⟩ := h
  rw [List.append_assoc, List.prefix_append_right_inj] at h2
  rw [List.singleton_append, List.cons_prefix_cons] at h2
  exact hne h2.1.symm

/-- Characterization of the scan pass: it appends the discovered rule sets
(in discovery order), records exactly the `.git` paths of the pruned walk,
adds the candidate file total, and touches nothing else.  The key-freshness
hypothesis states that no already-registered rule set is keyed inside the
directory being scanned. -/
theorem scan_char (compile : Compile) :
    ∀ (fuel : Nat) (path : AbsPath) (es : List FSEntry) (st : BkState),
      sizeOf es ≤ fuel →
      wfForest fuel es = true →
      (∀ kv ∈ st.gitignore_specs, ¬ (path <+: kv.1)) →
      (scan_directory compile fuel path es st).gitignore_specs =
          st.gitignore_specs ++ pureSpecs compile fuel path es ∧
        (∀ q, q ∈ (scan_directory compile fuel path es st).excluded_paths ↔
          q ∈ st.excluded_paths ∨ q ∈ pureGitPaths fuel path es) ∧
        (scan_directory compile fuel path es st).total_files =
          st.total_files + pureScanTotal fuel es ∧
        (scan_directory compile fuel path es st).processed_files = st.processed_files ∧
        (scan_directory compile fuel path es st).archive = st.archive ∧
        (scan_directory compile fuel path es st).manifest = st.manifest ∧
        (scan_directory compile fuel path es st).divisions = st.divisions := by
  intro fuel
  induction fuel with
  | zero =>
    intro path es st hsz _ _
    have : sizeOf es ≠ 0 := by
      cases es <;> simp
    omega
  | succ fuel ih =>
    intro path es st hsz hwf hnk
    simp only [scan_directory, pureSpecs, pureGitPaths, pureScanTotal]
    set dirsL := es.filter FSEntry.isDirE with hdirsL
    set filesL := es.filter FSEntry.isFileE with hfilesL
    set kept := dirsL.eraseP (fun e => e.name == ".git") with hkept
    -- the state after the frame bookkeeping
    set stA := if dirsL.any (fun e => e.name == ".git") then
        { st with excluded_paths := addPath (path ++ [".git"]) st.excluded_paths }
      else st with hstA
    have hA : stA.gitignore_specs = st.gitignore_specs ∧
        (∀ q, q ∈ stA.excluded_paths ↔ q ∈ st.excluded_paths ∨
          q ∈ (if dirsL.any (fun e => e.name == ".git") then [path ++ [".git"]] else
            ([] : List AbsPath))) ∧
        stA.total_files = st.total_files ∧ stA.processed_files = st.processed_files ∧
        stA.archive = st.archive ∧ stA.manifest = st.manifest ∧
        stA.divisions = st.divisions := by
      rw [hstA]
      split
      · refine ⟨rfl, ?_, rfl, rfl, rfl, rfl, rfl⟩
        intro q
        simp only [addPath, List.mem_cons, List.not_mem_nil, or_false]
        split
        · rename_i hin
          constructor
          · intro hq; exact Or.inl hq
          · rintro (hq | rfl)
            · exact hq
            · exact hin
        · simp only [List.mem_cons]
          constructor
          · rintro (rfl | hq)
            · exact Or.inr rfl
            · exact Or.inl hq
          · rintro (hq | rfl)
            · exact Or.inr hq
            · exact Or.inl rfl
      · refine ⟨rfl, ?_, rfl, rfl, rfl, rfl, rfl⟩
        intro q
        simp
    set stB := match filesL.find? (fun e => e.name == ".gitignore") with
      | some f => { stA with gitignore_specs := dictInsert stA.gitignore_specs path (compile f.contentOf) }
      | none => stA with hstB
    have hB : stB.gitignore_specs = st.gitignore_specs ++
          (match filesL.find? (fun e => e.name == ".gitignore") with
           | some f => [(path, compile f.contentOf)]
           | none => []) ∧
        stB.excluded_paths = stA.excluded_paths ∧
        stB.total_files = st.total_files ∧ stB.processed_files = st.processed_files ∧
        stB.archive = st.archive ∧ stB.manifest = st.manifest ∧
        stB.divisions = st.divisions := by
      rw [hstB]
      cases hfind : filesL.find? (fun e => e.name == ".gitignore") with
      | none => exact ⟨by simp [hA.1], rfl, hA.2.2.1, hA.2.2.2.1, hA.2.2.2.2.1,
          hA.2.2.2.2.2.1, hA.2.2.2.2.2.2⟩
      | some f =>
        refine ⟨?_, rfl, hA.2.2.1, hA.2.2.2.1, hA.2.2.2.2.1, hA.2.2.2.2.2.1, hA.2.2.2.2.2.2⟩
        show dictInsert stA.gitignore_specs path (compile f.contentOf) =
          st.gitignore_specs ++ [(path, compile f.contentOf)]
        have hfresh : ¬ stA.gitignore_specs.any (fun kv => kv.1 = path) = true := by
          rw [hA.1]
          rw [List.any_eq_true]
          rintro ⟨kv, hkv, hkveq⟩
          have := hnk kv hkv
          rw [of_decide_eq_true hkveq] at this
          exact this List.prefix_rfl
        unfold dictInsert
        rw [if_neg hfresh, hA.1]
    set stC := { stB with total_files := stB.total_files + filesL.length } with hstC
    -- the fold over the kept directories
    have hfold : ∀ (ks : List FSEntry) (st' : BkState),
        (∀ c ∈ ks, c ∈ es) →
        nodupB (ks.map FSEntry.name) = true →
        (∀ kv ∈ st'.gitignore_specs,
          ∀ c ∈ ks, ¬ ((path ++ [c.name]) <+: kv.1)) →
        (List.foldl (fun acc e => scan_directory compile fuel (path ++ [e.name]) e.childrenOf acc) st' ks).gitignore_specs =
            st'.gitignore_specs ++
              ((ks.map (fun c => pureSpecs compile fuel (path ++ [c.name]) c.childrenOf)).flatten) ∧
          (∀ q, q ∈ (List.foldl (fun acc e => scan_directory compile fuel (path ++ [e.name]) e.childrenOf acc) st' ks).excluded_paths ↔
            q ∈ st'.excluded_paths ∨
              q ∈ ((ks.map (fun c => pureGitPaths fuel (path ++ [c.name]) c.childrenOf)).flatten)) ∧
          (List.foldl (fun acc e => scan_directory compile fuel (path ++ [e.name]) e.childrenOf acc) st' ks).total_files =
            st'.total_files + ((ks.map (fun c => pureScanTotal fuel c.childrenOf)).sum) ∧
          (List.foldl (fun acc e => scan_directory compile fuel (path ++ [e.name]) e.childrenOf acc) st' ks).processed_files = st'.processed_files ∧
          (List.foldl (fun acc e => scan_directory compile fuel (path ++ [e.name]) e.childrenOf acc) st' ks).archive = st'.archive ∧
          (List.foldl (fun acc e => scan_directory compile fuel (path ++ [e.name]) e.childrenOf acc) st' ks).manifest = st'.manifest ∧
          (List.foldl (fun acc e => scan_directory compile fuel (path ++ [e.name]) e.childrenOf acc) st' ks).divisions = st'.divisions := by
      intro ks
      induction ks with
      | nil =>
        intro st' _ _ _
        simp
      | cons c rest ihk =>
        intro st' hmem hnd hfreshk
        have hc : c ∈ es := hmem c (List.mem_cons_self _ _)
        have hszc : sizeOf c.childrenOf ≤ fuel := by
          have h1 := List.sizeOf_lt_of_mem hc
          have h2 := FSEntry.sizeOf_childrenOf_lt c
          omega
        have hwfc : wfForest fuel c.childrenOf = true := wf_children hwf hc
        have hstep := ih (path ++ [c.name]) c.childrenOf st' hszc hwfc
          (fun kv hkv => hfreshk kv hkv c (List.mem_cons_self _ _))
        simp only [List.map_cons, List.flatten_cons, List.foldl_cons]
        simp only [List.map_cons, nodupB, Bool.and_eq_true, Bool.not_eq_true'] at hnd
        have hrest := ihk (scan_directory compile fuel (path ++ [c.name]) c.childrenOf st')
          (fun x hx => hmem x (List.mem_cons_of_mem _ hx)) hnd.2
          (by
            intro kv hkv x hx
            rw [hstep.1, List.mem_append] at hkv
            rcases hkv with hkv | hkv
            · exact hfreshk kv hkv x (List.mem_cons_of_mem _ hx)
            · have hpre := pureSpecs_keys compile fuel (path ++ [c.name]) c.childrenOf kv hkv
              have hxname : c.name ≠ x.name := by
                intro heq
                have : x.name ∈ rest.map FSEntry.name := List.mem_map_of_mem _ hx
                rw [← heq] at this
                have h2 : (rest.map FSEntry.name).contains c.name = true := by
                  unfold List.contains
                  exact List.elem_eq_true_of_mem this
                rw [hnd.1] at h2
                cases h2
              exact prefix_sibling_disjoint hxname hpre)
        refine ⟨?_, ?_, ?_, ?_, ?_, ?_, ?_⟩
        · rw [hrest.1, hstep.1, List.append_assoc]
        · intro q
          rw [hrest.2.1 q, hstep.2.1 q, List.mem_append]
          tauto
        · rw [hrest.2.2.1, hstep.2.2.1, List.sum_cons]
          omega
        · rw [hrest.2.2.2.1, hstep.2.2.2.1]
        · rw [hrest.2.2.2.2.1, hstep.2.2.2.2.1]
        · rw [hrest.2.2.2.2.2.1, hstep.2.2.2.2.2.1]
        · rw [hrest.2.2.2.2.2.2, hstep.2.2.2.2.2.2]
    have hkeptmem : ∀ c ∈ kept, c ∈ es := by
      intro c hcm
      have h1 : c ∈ dirsL := List.Sublist.mem hcm (List.eraseP_sublist _)
      exact List.Sublist.mem h1 (List.filter_sublist es)
    have hkeptnd : nodupB (kept.map FSEntry.name) = true := by
      have hsub : List.Sublist (kept.map FSEntry.name) (es.map FSEntry.name) := by
        apply List.Sublist.map
        exact (List.eraseP_sublist _).trans (List.filter_sublist es)
      exact nodupB_sublist hsub (wf_nodup hwf)
    have hfreshC : ∀ kv ∈ stC.gitignore_specs, ∀ c ∈ kept, ¬ ((path ++ [c.name]) <+: kv.1) := by
      intro kv hkv c _
      have hkv' : kv ∈ stB.gitignore_specs := by
        rw [hstC] at hkv
        exact hkv
      rw [hB.1, List.mem_append] at hkv'
      rcases hkv' with hkv' | hkv'
      · intro hpre
        exact hnk kv hkv' (List.IsPrefix.trans (List.prefix_append path [c.name]) hpre)
      · have hkv1 : kv.1 = path := by
          revert hkv'
          split
          · intro h
            rcases List.mem_singleton.mp h with rfl
            rfl
          · intro h; cases h
        rw [hkv1]
        intro hpre
        have := List.IsPrefix.length_le hpre
        simp at this
    have hF := hfold kept stC hkeptmem hkeptnd hfreshC
    refine ⟨?_, ?_, ?_, ?_, ?_, ?_, ?_⟩
    · rw [hF.1, hstC]
      simp only []
      rw [hB.1, List.append_assoc]
    · intro q
      rw [hF.2.1 q]
      have hCex : stC.excluded_paths = stA.excluded_paths := by
        rw [hstC]
        simp only []
        exact hB.2.1
      rw [hCex, hA.2.1 q, List.mem_append]
      constructor
      · rintro ((hq | hq) | hq)
        · exact Or.inl hq
        · refine Or.inr (Or.inl ?_)
          revert hq
          split <;> (intro hq; first | exact hq | cases hq)
        · exact Or.inr (Or.inr hq)
      · rintro (hq | (hq | hq))
        · exact Or.inl (Or.inl hq)
        · refine Or.inl (Or.inr ?_)
          revert hq
          split <;> (intro hq; first | exact hq | cases hq)
        · exact Or.inr hq
    · rw [hF.2.2.1, hstC]
      simp only []
      rw [hB.2.2.1]
      omega
    · rw [hF.2.2.2.1, hstC]
      simp only []
      exact hB.2.2.2.1
    · rw [hF.2.2.2.2.1, hstC]
      simp only []
      exact hB.2.2.2.2.1
    · rw [hF.2.2.2.2.2.1, hstC]
      simp only []
      exact hB.2.2.2.2.2.1
    · rw [hF.2.2.2.2.2.2, hstC]
      simp only []
      exact hB.2.2.2.2.2.2

theorem pruneDirs_mem {path : AbsPath} :
    ∀ {ds : List FSEntry} {st : BkState} {e : FSEntry},
      e ∈ (pruneDirs path ds st).1 → e ∈ ds := by
  intro ds
  induction ds with
  | nil => intro st e h; simp [pruneDirs] at h
  | cons d rest ih =>
    intro st e h
    simp only [pruneDirs] at h
    by_cases hq : (should_exclude (path ++ [d.name]) true st).1
    · simp [hq] at h
      exact List.mem_cons_of_mem _ (ih h)
    · simp [hq] at h
      rcases h with h | h
      · exact h ▸ List.mem_cons_self _ _
      · exact List.mem_cons_of_mem _ (ih h)

/-- Characterization of the write walk against the cache-free candidate
list: the archive gains exactly the admitted files whose add succeeded (in
walk order, under their relpath components), the manifest gains the lines of
the fully processed files in verbose mode, the processed counter advances by
their number, every recorded division pair has the then-current processed
counter as numerator and the fixed scan total as denominator, and specs,
total and the cache invariant are preserved. -/
theorem write_char {α : Type} (H : HashModel α) (env : Env) {tree : List FSEntry}
    {specs : List (AbsPath × Spec)} :
    ∀ (fuel : Nat) (rel : List String) (es : List FSEntry) (st : BkState),
      sizeOf es ≤ fuel →
      wfForest fuel es = true →
      forestAt tree rel = some es →
      st.gitignore_specs = specs →
      CacheOK tree env.src specs st.excluded_paths →
      (writeWalk H env fuel (env.src ++ rel) es st).gitignore_specs = specs ∧
        (writeWalk H env fuel (env.src ++ rel) es st).total_files = st.total_files ∧
        CacheOK tree env.src specs (writeWalk H env fuel (env.src ++ rel) es st).excluded_paths ∧
        (writeWalk H env fuel (env.src ++ rel) es st).archive =
          st.archive ++ (addedOf env (pureCand specs fuel (env.src ++ rel) es)).map
            (fun c => relpathComps c.1 env.src.dropLast) ∧
        (writeWalk H env fuel (env.src ++ rel) es st).manifest =
          st.manifest ++ (if env.verbose then
            (processedOf env (pureCand specs fuel (env.src ++ rel) es)).map (lineOf H env) else []) ∧
        (writeWalk H env fuel (env.src ++ rel) es st).processed_files =
          st.processed_files + (processedOf env (pureCand specs fuel (env.src ++ rel) es)).length ∧
        (∃ ds, (writeWalk H env fuel (env.src ++ rel) es st).divisions = st.divisions ++ ds ∧
          ∀ d ∈ ds, st.processed_files < d.1 ∧
            d.1 ≤ (writeWalk H env fuel (env.src ++ rel) es st).processed_files ∧
            d.2 = st.total_files) := by
  intro fuel
  induction fuel with
  | zero =>
    intro rel es st hsz _ _ _ _
    have : sizeOf es ≠ 0 := by
      cases es <;> simp
    omega
  | succ fuel ih =>
    intro rel es st hsz hwf hforest h1 hc
    simp only [writeWalk, pureCand]
    set dirsL := es.filter FSEntry.isDirE with hdirsL
    set filesL := es.filter FSEntry.isFileE with hfilesL
    have hdirpos : ∀ e ∈ dirsL, isDirAtB tree (rel ++ [e.name]) = true := by
      intro e he
      have he1 : e ∈ es := List.Sublist.mem he (List.filter_sublist es)
      have he2 : e.isDirE = true := (List.mem_filter.mp he).2
      have hfind : findName e.name es = some e := findName_of_mem he1 (wf_nodup hwf)
      have hentry : entryAt tree (rel ++ [e.name]) = some e :=
        (entryAt_append hforest e.name).trans hfind
      unfold isDirAtB
      rw [hentry]
      exact he2
    have hfilepos : ∀ f ∈ filesL, isFileAtB tree (rel ++ [f.name]) = true := by
      intro f hf
      have hf1 : f ∈ es := List.Sublist.mem hf (List.filter_sublist es)
      have hf2 : f.isFileE = true := (List.mem_filter.mp hf).2
      have hfind : findName f.name es = some f := findName_of_mem hf1 (wf_nodup hwf)
      have hentry : entryAt tree (rel ++ [f.name]) = some f :=
        (entryAt_append hforest f.name).trans hfind
      unfold isFileAtB
      rw [hentry]
      exact hf2
    have hprune := pruneDirs_kept (r := rel) h1 hc hdirpos
    have hprfields := pruneDirs_fields (env.src ++ rel) dirsL st
    set pr := pruneDirs (env.src ++ rel) dirsL st with hpr
    have hfiles := filesPhase_char H env (r := rel)
      (hprfields.1.trans h1) hprune.2 hfilepos
    set st2 := filesPhase H env (env.src ++ rel) filesL pr.2 with hst2
    -- the fold over the kept directories
    have hfold : ∀ (ks : List FSEntry) (st' : BkState),
        (∀ c ∈ ks, c ∈ es) →
        (∀ c ∈ ks, c.isDirE = true) →
        st'.gitignore_specs = specs →
        CacheOK tree env.src specs st'.excluded_paths →
        (List.foldl (fun acc e => writeWalk H env fuel ((env.src ++ rel) ++ [e.name]) e.childrenOf acc) st' ks).gitignore_specs = specs ∧
          (List.foldl (fun acc e => writeWalk H env fuel ((env.src ++ rel) ++ [e.name]) e.childrenOf acc) st' ks).total_files = st'.total_files ∧
          CacheOK tree env.src specs (List.foldl (fun acc e => writeWalk H env fuel ((env.src ++ rel) ++ [e.name]) e.childrenOf acc) st' ks).excluded_paths ∧
          (List.foldl (fun acc e => writeWalk H env fuel ((env.src ++ rel) ++ [e.name]) e.childrenOf acc) st' ks).archive =
            st'.archive ++ (addedOf env ((ks.map (fun c => pureCand specs fuel ((env.src ++ rel) ++ [c.name]) c.childrenOf)).flatten)).map
              (fun c => relpathComps c.1 env.src.dropLast) ∧
          (List.foldl (fun acc e => writeWalk H env fuel ((env.src ++ rel) ++ [e.name]) e.childrenOf acc) st' ks).manifest =
            st'.manifest ++ (if env.verbose then
              (processedOf env ((ks.map (fun c => pureCand specs fuel ((env.src ++ rel) ++ [c.name]) c.childrenOf)).flatten)).map (lineOf H env) else []) ∧
          (List.foldl (fun acc e => writeWalk H env fuel ((env.src ++ rel) ++ [e.name]) e.childrenOf acc) st' ks).processed_files =
            st'.processed_files + (processedOf env ((ks.map (fun c => pureCand specs fuel ((env.src ++ rel) ++ [c.name]) c.childrenOf)).flatten)).length ∧
          (∃ ds, (List.foldl (fun acc e => writeWalk H env fuel ((env.src ++ rel) ++ [e.name]) e.childrenOf acc) st' ks).divisions = st'.divisions ++ ds ∧
            ∀ d ∈ ds, st'.processed_files < d.1 ∧
              d.1 ≤ (List.foldl (fun acc e => writeWalk H env fuel ((env.src ++ rel) ++ [e.name]) e.childrenOf acc) st' ks).processed_files ∧
              d.2 = st'.total_files) := by
      intro ks
      induction ks with
      | nil =>
        intro st' _ _ h1' hc'
        refine ⟨h1', rfl, hc', by simp [addedOf], by simp [addedOf, processedOf],
          by simp [addedOf, processedOf], ⟨[], by simp, by intro d hd; cases hd⟩⟩
      | cons c rest ihk =>
        intro st' hmem hdirk h1' hc'
        have hcmem : c ∈ es := hmem c (List.mem_cons_self _ _)
        have hcdir : c.isDirE = true := hdirk c (List.mem_cons_self _ _)
        have hszc : sizeOf c.childrenOf ≤ fuel := by
          have hlt1 := List.sizeOf_lt_of_mem hcmem
          have hlt2 := FSEntry.sizeOf_childrenOf_lt c
          omega
        have hwfc : wfForest fuel c.childrenOf = true := wf_children hwf hcmem
        obtain ⟨nm, cs, rfl⟩ : ∃ nm cs, c = FSEntry.dir nm cs := by
          cases c with
          | file _ _ _ => cases hcdir
          | dir nm cs => exact ⟨nm, cs, rfl⟩
        have hfind : findName (FSEntry.dir nm cs).name es = some (FSEntry.dir nm cs) :=
          findName_of_mem hcmem (wf_nodup hwf)
        have hforest' : forestAt tree (rel ++ [(FSEntry.dir nm cs).name]) = some cs :=
          forestAt_append hforest hfind
        have hforest'' : forestAt tree (rel ++ [(FSEntry.dir nm cs).name]) =
            some (FSEntry.dir nm cs).childrenOf := hforest'
        have hstep := ih (rel ++ [(FSEntry.dir nm cs).name]) (FSEntry.dir nm cs).childrenOf st'
          hszc hwfc hforest'' h1' hc'
        rw [← List.append_assoc] at hstep
        simp only [List.foldl_cons, List.map_cons, List.flatten_cons]
        have hrest := ihk (writeWalk H env fuel ((env.src ++ rel) ++ [(FSEntry.dir nm cs).name]) (FSEntry.dir nm cs).childrenOf st')
          (fun x hx => hmem x (List.mem_cons_of_mem _ hx))
          (fun x hx => hdirk x (List.mem_cons_of_mem _ hx))
          hstep.1 hstep.2.2.1
        refine ⟨hrest.1, ?_, hrest.2.2.1, ?_, ?_, ?_, ?_⟩
        · rw [hrest.2.1, hstep.2.1]
        · rw [hrest.2.2.2.1, hstep.2.2.2.1, addedOf_append, List.map_append,
            List.append_assoc]
        · rw [hrest.2.2.2.2.1, hstep.2.2.2.2.1, processedOf_append, List.map_append]
          by_cases hv : env.verbose = true
          · simp only [hv, if_true, List.append_assoc]
          · rw [Bool.not_eq_true] at hv
            simp [hv]
        · rw [hrest.2.2.2.2.2.1, hstep.2.2.2.2.2.1, processedOf_append, List.length_append]
          omega
        · obtain ⟨ds1, hds1, hbound1⟩ := hstep.2.2.2.2.2.2
          obtain ⟨ds2, hds2, hbound2⟩ := hrest.2.2.2.2.2.2
          refine ⟨ds1 ++ ds2, by rw [hds2, hds1, List.append_assoc], ?_⟩
          intro d hd
          have hmono : st'.processed_files ≤
              (writeWalk H env fuel ((env.src ++ rel) ++ [(FSEntry.dir nm cs).name]) (FSEntry.dir nm cs).childrenOf st').processed_files := by
            rw [hstep.2.2.2.2.2.1]
            omega
          have hmono2 : (writeWalk H env fuel ((env.src ++ rel) ++ [(FSEntry.dir nm cs).name]) (FSEntry.dir nm cs).childrenOf st').processed_files ≤
              (List.foldl (fun acc e => writeWalk H env fuel ((env.src ++ rel) ++ [e.name]) e.childrenOf acc)
                (writeWalk H env fuel ((env.src ++ rel) ++ [(FSEntry.dir nm cs).name]) (FSEntry.dir nm cs).childrenOf st') rest).processed_files := by
            rw [hrest.2.2.2.2.2.1]
            omega
          rcases List.mem_append.mp hd with hd1 | hd2
          · obtain ⟨hb1, hb2, hb3⟩ := hbound1 d hd1
            exact ⟨hb1, le_trans hb2 hmono2, hb3⟩
          · obtain ⟨hb1, hb2, hb3⟩ := hbound2 d hd2
            refine ⟨lt_of_le_of_lt hmono hb1, hb2, ?_⟩
            rw [hstep.2.1] at hb3
            exact hb3
    have hkeptes : ∀ c ∈ pr.1, c ∈ es := by
      intro c hcm
      have h1' : c ∈ dirsL := pruneDirs_mem hcm
      exact List.Sublist.mem h1' (List.filter_sublist es)
    have hkeptdir : ∀ c ∈ pr.1, c.isDirE = true := by
      intro c hcm
      have h1' : c ∈ dirsL := pruneDirs_mem hcm
      exact (List.mem_filter.mp h1').2
    have hF := hfold pr.1 st2 hkeptes hkeptdir (hfiles.1) (hfiles.2.2.1)
    have hkeq : pr.1 = dirsL.filter (fun e => !excludedPure specs (env.src ++ rel ++ [e.name]) true) :=
      hprune.1
    refine ⟨hF.1, ?_, hF.2.2.1, ?_, ?_, ?_, ?_⟩
    · rw [hF.2.1, hfiles.2.1, hprfields.2.1]
    · rw [hF.2.2.2.1, hfiles.2.2.2.1, hprfields.2.2.2.1, hkeq, addedOf_append,
        List.map_append, List.append_assoc]
    · rw [hF.2.2.2.2.1, hfiles.2.2.2.2.1, hprfields.2.2.2.2.1, hkeq, processedOf_append,
        List.map_append]
      by_cases hv : env.verbose = true
      · simp only [hv, if_true, List.append_assoc]
      · rw [Bool.not_eq_true] at hv
        simp [hv]
    · rw [hF.2.2.2.2.2.1, hfiles.2.2.2.2.2.1, hprfields.2.2.1, hkeq, processedOf_append,
        List.length_append]
      omega
    · obtain ⟨ds1, hds1, hbound1⟩ := hfiles.2.2.2.2.2.2
      obtain ⟨ds2, hds2, hbound2⟩ := hF.2.2.2.2.2.2
      refine ⟨ds1 ++ ds2, by rw [hds2, hds1, hprfields.2.2.2.2.2, List.append_assoc], ?_⟩
      intro d hd
      have hm1 : st.processed_files = pr.2.processed_files := hprfields.2.2.1.symm
      have hm2 : pr.2.processed_files ≤ st2.processed_files := by
        rw [hfiles.2.2.2.2.2.1]
        omega
      have hm3 : st2.processed_files ≤
          (List.foldl (fun acc e => writeWalk H env fuel ((env.src ++ rel) ++ [e.name]) e.childrenOf acc) st2 pr.1).processed_files := by
        rw [hF.2.2.2.2.2.1]
        omega
      rcases List.mem_append.mp hd with hd1 | hd2
      · obtain ⟨hb1, hb2, hb3⟩ := hbound1 d hd1
        rw [← hm1] at hb1
        refine ⟨hb1, le_trans hb2 hm3, ?_⟩
        rw [hprfields.2.1] at hb3
        exact hb3
      · obtain ⟨hb1, hb2, hb3⟩ := hbound2 d hd2
        refine ⟨?_, hb2, ?_⟩
        · omega
        · rw [hfiles.2.1, hprfields.2.1] at hb3
          exact hb3

theorem filter_sublist_eraseP {p q : FSEntry → Bool} :
    ∀ {l : List FSEntry}, (∀ x ∈ l, p x = true → q x = false) →
      List.Sublist (l.filter p) (l.eraseP q) := by
  intro l
  induction l with
  | nil => intro _; simp
  | cons a rest ih =>
    intro h
    by_cases hq : q a = true
    · rw [List.eraseP_cons_of_pos hq]
      have hp : p a = false := by
        by_cases hp : p a = true
        · rw [h a (List.mem_cons_self _ _) hp] at hq; cases hq
        · exact Bool.not_eq_true _ |>.mp hp
      rw [List.filter_cons_of_neg (by simp [hp])]
      exact List.filter_sublist rest
    · have hq' : q a = false := Bool.not_eq_true _ |>.mp hq
      rw [List.eraseP_cons_of_neg (by simp [hq'])]
      by_cases hp : p a = true
      · rw [List.filter_cons_of_pos hp]
        exact List.Sublist.cons₂ a (ih (fun x hx => h x (List.mem_cons_of_mem _ hx)))
      · rw [List.filter_cons_of_neg (by simp [Bool.not_eq_true _ |>.mp hp])]
        exact List.Sublist.cons a (ih (fun x hx => h x (List.mem_cons_of_mem _ hx)))

/-- The write walk never reaches more candidate files than the scan pass
counted: its directory pruning is at least as aggressive as the scan's
`.git` pruning. -/
theorem pureCand_length_le (specs : List (AbsPath × Spec)) :
    ∀ (fuel : Nat) (path : AbsPath) (es : List FSEntry),
      (pureCand specs fuel path es).length ≤ pureScanTotal fuel es := by
  intro fuel
  induction fuel with
  | zero => intro path es; simp [pureCand, pureScanTotal]
  | succ fuel ih =>
    intro path es
    simp only [pureCand, pureScanTotal, List.length_append, candOf, List.length_map]
    have h1 : ((es.filter FSEntry.isFileE).filter
        (fun f => !rulesMatch specs (path ++ [f.name]))).length ≤
        (es.filter FSEntry.isFileE).length :=
      List.length_filter_le _ _
    have h2 : ((((es.filter FSEntry.isDirE).filter
        (fun d => !excludedPure specs (path ++ [d.name]) true)).map
        (fun d => pureCand specs fuel (path ++ [d.name]) d.childrenOf)).flatten).length ≤
        (((es.filter FSEntry.isDirE).eraseP (fun e => e.name == ".git")).map
          (fun e => pureScanTotal fuel e.childrenOf)).sum := by
      rw [List.length_flatten]
      have hsubl : List.Sublist
          ((es.filter FSEntry.isDirE).filter
            (fun d => !excludedPure specs (path ++ [d.name]) true))
          ((es.filter FSEntry.isDirE).eraseP (fun e => e.name == ".git")) := by
        apply filter_sublist_eraseP
        intro x _ hx
        rw [Bool.not_eq_true'] at hx
        unfold excludedPure at hx
        rw [Bool.or_eq_false_iff, Bool.and_eq_false_iff] at hx
        rcases hx.1 with hx1 | hx1
        · rw [beq_eq_false_iff_ne] at hx1 ⊢
          intro hname
          exact hx1 (by rw [List.getLast?_concat, hname])
        · simp at hx1
      calc ((((es.filter FSEntry.isDirE).filter
            (fun d => !excludedPure specs (path ++ [d.name]) true)).map
            (fun d => pureCand specs fuel (path ++ [d.name]) d.childrenOf)).map List.length).sum
          ≤ (((es.filter FSEntry.isDirE).filter
            (fun d => !excludedPure specs (path ++ [d.name]) true)).map
            (fun e => pureScanTotal fuel e.childrenOf)).sum := by
            rw [List.map_map]
            apply List.sum_le_sum
            intro i _
            exact ih (path ++ [i.name]) i.childrenOf
        _ ≤ (((es.filter FSEntry.isDirE).eraseP (fun e => e.name == ".git")).map
            (fun e => pureScanTotal fuel e.childrenOf)).sum := by
            apply List.Sublist.sum_le_sum
            · exact List.Sublist.map _ hsubl
            · intro a _
              exact Nat.zero_le a
    omega

theorem processedOf_length_le (env : Env) (cand : List (AbsPath × FSEntry)) :
    (processedOf env cand).length ≤ cand.length :=
  Nat.le_trans (List.length_filter_le _ _) (List.length_filter_le _ _)

/-- Characterization of a full successful `create_backup` run: rule sets,
scan total, archive contents (admitted files under their arcnames, plus the
manifest entry in verbose mode), manifest (three headers then one line per
fully processed file in verbose mode), processed counter, and the recorded
progress-division operand pairs. -/
theorem create_backup_char {α : Type} (H : HashModel α) (env : Env) (clock : String)
    (fuel : Nat) (tree : List FSEntry)
    (hsz : sizeOf tree ≤ fuel)
    (hwf : wfForest fuel tree = true) :
    (create_backup H env clock fuel tree).gitignore_specs =
        pureSpecs env.compile fuel env.src tree ∧
      (create_backup H env clock fuel tree).total_files = pureScanTotal fuel tree ∧
      (create_backup H env clock fuel tree).archive =
        (addedOf env (pureCand (pureSpecs env.compile fuel env.src tree) fuel env.src tree)).map
            (fun c => relpathComps c.1 env.src.dropLast) ++
          (if env.verbose then [["backup_manifest.txt"]] else []) ∧
      (create_backup H env clock fuel tree).manifest =
        ["# Backup created: " ++ clock, "# Source: " ++ pathString env.src,
            "# path,size,modified,sha256"] ++
          (if env.verbose then
            (processedOf env
              (pureCand (pureSpecs env.compile fuel env.src tree) fuel env.src tree)).map
              (lineOf H env)
           else []) ∧
      (create_backup H env clock fuel tree).processed_files =
        (processedOf env
          (pureCand (pureSpecs env.compile fuel env.src tree) fuel env.src tree)).length ∧
      (∀ d ∈ (create_backup H env clock fuel tree).divisions,
        1 ≤ d.1 ∧
          d.1 ≤ (processedOf env
            (pureCand (pureSpecs env.compile fuel env.src tree) fuel env.src tree)).length ∧
          d.2 = pureScanTotal fuel tree) := by
  have hscan := scan_char env.compile fuel env.src tree initState hsz hwf
    (by intro kv hkv; cases hkv)
  set st1 := scan_directory env.compile fuel env.src tree initState with hst1
  obtain ⟨hg1, he1, ht1, hp1, ha1, hm1, hd1⟩ := hscan
  simp only [initState] at hg1 he1 ht1 hp1 ha1 hm1 hd1
  set specs := pureSpecs env.compile fuel env.src tree with hspecs
  set st2 : BkState := { st1 with manifest :=
      ["# Backup created: " ++ clock, "# Source: " ++ pathString env.src,
       "# path,size,modified,sha256"] } with hst2
  have hg2 : st2.gitignore_specs = specs := by
    simp only [hst2]; exact hg1
  have hc2 : CacheOK tree env.src specs st2.excluded_paths := by
    intro p hp
    right
    have hp' : p ∈ pureGitPaths fuel env.src tree := by
      have := (he1 p).mp hp
      simpa using this
    have hshape := @pureGitPaths_shape tree env.src fuel [] tree hwf rfl p
      (by rw [List.append_nil]; exact hp')
    exact hshape
  have hwrite := @write_char _ H env tree specs fuel [] tree st2
    hsz hwf rfl hg2 hc2
  rw [List.append_nil] at hwrite
  obtain ⟨hwg, hwt, _, hwa, hwm, hwp, ds, hwd, hwds⟩ := hwrite
  set st3 := writeWalk H env fuel env.src tree st2 with hst3
  have ht2 : st2.total_files = pureScanTotal fuel tree := by
    simp only [hst2]; simpa using ht1
  have hp2 : st2.processed_files = 0 := by
    simp only [hst2]; simpa using hp1
  have ha2 : st2.archive = [] := by
    simp only [hst2]; simpa using ha1
  have hd2 : st2.divisions = [] := by
    simp only [hst2]; simpa using hd1
  have hm2 : st2.manifest =
      ["# Backup created: " ++ clock, "# Source: " ++ pathString env.src,
       "# path,size,modified,sha256"] := rfl
  have harch : st3.archive =
      (addedOf env (pureCand specs fuel env.src tree)).map
        (fun c => relpathComps c.1 env.src.dropLast) := by
    rw [hwa, ha2, List.nil_append]
  have hman : st3.manifest =
      ["# Backup created: " ++ clock, "# Source: " ++ pathString env.src,
          "# path,size,modified,sha256"] ++
        (if env.verbose then
          (processedOf env (pureCand specs fuel env.src tree)).map (lineOf H env) else []) := by
    rw [hwm, hm2]
  have hproc : st3.processed_files =
      (processedOf env (pureCand specs fuel env.src tree)).length := by
    rw [hwp, hp2, Nat.zero_add]
  have hdiv3 : ∀ d ∈ st3.divisions,
      1 ≤ d.1 ∧ d.1 ≤ (processedOf env (pureCand specs fuel env.src tree)).length ∧
        d.2 = pureScanTotal fuel tree := by
    intro d hd
    rw [hwd, hd2, List.nil_append] at hd
    have h3 := hwds d hd
    have h1 := h3.2.1
    rw [hproc] at h1
    have h0 := h3.1
    rw [hp2] at h0
    exact ⟨h0, h1, by rw [h3.2.2, ht2]⟩
  have hfinal : create_backup H env clock fuel tree =
      (if env.verbose then { st3 with archive := st3.archive ++ [["backup_manifest.txt"]] }
       else st3) := rfl
  rw [hfinal]
  cases hv : env.verbose
  · rw [hv] at hman
    rw [if_neg (show ¬(false = true) by simp)]
    refine ⟨hwg, by rw [hwt, ht2], ?_, hman, hproc, hdiv3⟩
    rw [if_neg (show ¬(false = true) by simp), List.append_nil]
    exact harch
  · rw [hv] at hman
    rw [if_pos rfl]
    refine ⟨hwg, ?_, ?_, hman, hproc, hdiv3⟩
    · show st3.total_files = _
      rw [hwt, ht2]
    · show st3.archive ++ [["backup_manifest.txt"]] = _
      rw [harch, if_pos rfl]

theorem readChunksF_foldl {α : Type} (H : HashModel α)
    (hid : ∀ a, H.upd a [] = a)
    (hcat : ∀ a b c, H.upd (H.upd a b) c = H.upd a (b ++ c)) :
    ∀ (fuel : Nat) (bs : Bytes) (a : α), bs.length ≤ fuel →
      (readChunksF fuel bs).foldl H.upd a = H.upd a bs := by
  intro fuel
  induction fuel with
  | zero =>
    intro bs a hlen
    have hbs : bs = [] := List.eq_nil_of_length_eq_zero (Nat.le_zero.mp hlen)
    subst hbs
    simp [readChunksF, hid]
  | succ fuel ih =>
    intro bs a hlen
    match bs with
    | [] => simp [readChunksF, hid]
    | b :: bs' =>
      simp only [readChunksF, List.foldl_cons]
      rw [ih _ _ (by simp only [List.length_drop, List.length_cons] at hlen ⊢; omega)]
      rw [hcat, List.take_append_drop]

/-- Streaming the 4096-byte blocks of a file into a concatenating hash gives
the digest of the whole content. -/
theorem calculate_checksum_eq_wholeDigest {α : Type} (H : HashModel α)
    (hid : ∀ a, H.upd a [] = a)
    (hcat : ∀ a b c, H.upd (H.upd a b) c = H.upd a (b ++ c))
    (content : Bytes) :
    calculate_checksum H content = wholeDigest H content := by
  unfold calculate_checksum wholeDigest readChunks
  rw [readChunksF_foldl H hid hcat content.length content H.init (Nat.le_refl _)]

theorem commonLen_append : ∀ (l t : List String), commonLen l (l ++ t) = l.length := by
  intro l
  induction l with
  | nil => intro t; cases t <;> rfl
  | cons a as ih => intro t; simp [commonLen, ih]

/-- `os.path.relpath` of a path strictly inside a directory is the residual
component list. -/
theorem relpathComps_under (l : List String) (n : String) (s : List String) :
    relpathComps (l ++ n :: s) l = n :: s := by
  unfold relpathComps
  rw [commonLen_append, Nat.sub_self, List.replicate_zero, List.nil_append, List.drop_left]

theorem mem_eraseP_name : ∀ {l : List FSEntry}, nodupB (l.map FSEntry.name) = true →
    ∀ {e : FSEntry}, e ∈ l.eraseP (fun x => x.name == ".git") → e.name ≠ ".git" := by
  intro l
  induction l with
  | nil => intro _ e he; cases he
  | cons h tl ih =>
    intro hnd e he
    simp only [List.map_cons, nodupB, Bool.and_eq_true, Bool.not_eq_true'] at hnd
    by_cases hh : h.name = ".git"
    · rw [List.eraseP_cons_of_pos (by simp [hh])] at he
      intro hcontra
      have h1 : e.name ∈ tl.map FSEntry.name := List.mem_map_of_mem _ he
      rw [hcontra, ← hh] at h1
      have h2 : (tl.map FSEntry.name).contains h.name = true := by
        unfold List.contains
        exact List.elem_eq_true_of_mem h1
      rw [hnd.1] at h2
      cases h2
    · rw [List.eraseP_cons_of_neg (by simp [hh])] at he
      rcases List.mem_cons.mp he with rfl | he'
      · exact hh
      · exact ih hnd.2 he'

/-- Every write-walk candidate lies strictly below the walk root, its first
residual component naming a frame entry. -/
theorem pureCand_prefix (specs : List (AbsPath × Spec)) :
    ∀ (fuel : Nat) (path : AbsPath) (es : List FSEntry) (c : AbsPath × FSEntry),
      c ∈ pureCand specs fuel path es →
      ∃ e ∈ es, ∃ s, c.1 = path ++ e.name :: s := by
  intro fuel
  induction fuel with
  | zero => intro path es c hc; cases hc
  | succ fuel ih =>
    intro path es c hc
    simp only [pureCand, List.mem_append] at hc
    rcases hc with hc | hc
    · unfold candOf at hc
      obtain ⟨f, hf, rfl⟩ := List.mem_map.mp hc
      have hf1 : f ∈ es :=
        List.Sublist.mem (List.Sublist.mem hf (List.filter_sublist _)) (List.filter_sublist es)
      exact ⟨f, hf1, [], rfl⟩
    · rw [List.mem_flatten] at hc
      obtain ⟨L, hL, hcL⟩ := hc
      rw [List.mem_map] at hL
      obtain ⟨d, hd, rfl⟩ := hL
      have hd1 : d ∈ es :=
        List.Sublist.mem (List.Sublist.mem hd (List.filter_sublist _)) (List.filter_sublist es)
      obtain ⟨e', _, s', hs'⟩ := ih (path ++ [d.name]) d.childrenOf c hcL
      exact ⟨d, hd1, e'.name :: s', by rw [hs', List.append_assoc]; rfl⟩

/-- No write-walk candidate lies under a directory named `.git`. -/
theorem pureCand_nogit (specs : List (AbsPath × Spec)) :
    ∀ (fuel : Nat) (path : AbsPath) (es : List FSEntry) (c : AbsPath × FSEntry),
      c ∈ pureCand specs fuel path es →
      ∃ s, c.1 = path ++ s ∧ s ≠ [] ∧ ".git" ∉ s.dropLast := by
  intro fuel
  induction fuel with
  | zero => intro path es c hc; cases hc
  | succ fuel ih =>
    intro path es c hc
    simp only [pureCand, List.mem_append] at hc
    rcases hc with hc | hc
    · unfold candOf at hc
      obtain ⟨f, _, rfl⟩ := List.mem_map.mp hc
      exact ⟨[f.name], rfl, by simp, by simp⟩
    · rw [List.mem_flatten] at hc
      obtain ⟨L, hL, hcL⟩ := hc
      rw [List.mem_map] at hL
      obtain ⟨d, hd, rfl⟩ := hL
      have hdx : (!excludedPure specs (path ++ [d.name]) true) = true :=
        (List.mem_filter.mp hd).2
      have hdgit : d.name ≠ ".git" := by
        rw [Bool.not_eq_true'] at hdx
        unfold excludedPure at hdx
        rw [Bool.or_eq_false_iff, Bool.and_eq_false_iff] at hdx
        rcases hdx.1 with hx1 | hx1
        · rw [beq_eq_false_iff_ne] at hx1
          intro hname
          exact hx1 (by rw [List.getLast?_concat, hname])
        · simp at hx1
      obtain ⟨s', hs1, hs2, hs3⟩ := ih (path ++ [d.name]) d.childrenOf c hcL
      refine ⟨d.name :: s', by rw [hs1, List.append_assoc]; rfl, by simp, ?_⟩
      match s', hs2 with
      | b :: t, _ =>
        rw [List.dropLast_cons₂]
        intro hmem
        rcases List.mem_cons.mp hmem with h1 | h1
        · exact hdgit h1.symm
        · exact hs3 h1

/-- Every rule set the scan registers is keyed outside any `.git` subtree. -/
theorem pureSpecs_nogit (compile : Compile) :
    ∀ (fuel : Nat) (path : AbsPath) (es : List FSEntry),
      wfForest fuel es = true →
      ∀ kv ∈ pureSpecs compile fuel path es,
        ∃ s, kv.1 = path ++ s ∧ ".git" ∉ s := by
  intro fuel
  induction fuel with
  | zero => intro path es _ kv h; cases h
  | succ fuel ih =>
    intro path es hwf kv h
    simp only [pureSpecs, List.mem_append] at h
    rcases h with h | h
    · split at h
      · rcases List.mem_singleton.mp h with rfl
        exact ⟨[], by simp, by simp⟩
      · cases h
    · rw [List.mem_flatten] at h
      obtain ⟨L, hL, hkv⟩ := h
      rw [List.mem_map] at hL
      obtain ⟨d, hd, rfl⟩ := hL
      have hnd : nodupB ((es.filter FSEntry.isDirE).map FSEntry.name) = true :=
        nodupB_sublist (List.Sublist.map _ (List.filter_sublist es)) (wf_nodup hwf)
      have hdgit : d.name ≠ ".git" := mem_eraseP_name hnd hd
      have hd1 : d ∈ es :=
        List.Sublist.mem (List.Sublist.mem hd (List.eraseP_sublist _)) (List.filter_sublist es)
      obtain ⟨s', hs1, hs2⟩ := ih (path ++ [d.name]) d.childrenOf (wf_children hwf hd1) kv hkv
      refine ⟨d.name :: s', by rw [hs1, List.append_assoc]; rfl, ?_⟩
      intro hmem
      rcases List.mem_cons.mp hmem with h1 | h1
      · exact hdgit h1.symm
      · exact hs2 h1

theorem count_arc_frame (path : AbsPath) (n : String) :
    ∀ (L : List FSEntry),
      List.count (path ++ [n]) (L.map (fun f => path ++ [f.name])) =
        List.count n (L.map FSEntry.name) := by
  intro L
  induction L with
  | nil => rfl
  | cons f tl ih =>
    simp only [List.map_cons, List.count_cons, ih]
    congr 1
    by_cases h : f.name = n
    · simp [h]
    · have hne : path ++ [f.name] ≠ path ++ [n] := by
        intro hc
        exact h (by simpa using List.append_cancel_left hc)
      simp [h, hne]

theorem count_name_filter (pred : FSEntry → Bool) :
    ∀ {L : List FSEntry} {f : FSEntry},
      nodupB (L.map FSEntry.name) = true → f ∈ L → pred f = true →
      List.count f.name ((L.filter pred).map FSEntry.name) = 1 := by
  intro L
  induction L with
  | nil => intro f _ hf; cases hf
  | cons g tl ih =>
    intro f hnd hf hp
    simp only [List.map_cons, nodupB, Bool.and_eq_true, Bool.not_eq_true'] at hnd
    rcases List.mem_cons.mp hf with rfl | hf'
    · rw [List.filter_cons_of_pos hp, List.map_cons, List.count_cons]
      have hnotmem : f.name ∉ (tl.filter pred).map FSEntry.name := by
        intro hc
        obtain ⟨x, hx, hxe⟩ := List.mem_map.mp hc
        have h1 : f.name ∈ tl.map FSEntry.name :=
          hxe ▸ List.mem_map_of_mem _ (List.Sublist.mem hx (List.filter_sublist tl))
        have h2 : (tl.map FSEntry.name).contains f.name = true := by
          unfold List.contains
          exact List.elem_eq_true_of_mem h1
        rw [hnd.1] at h2
        cases h2
      rw [List.count_eq_zero_of_not_mem hnotmem]
      simp
    · have hgf : (g.name == f.name) = false := by
        rw [beq_eq_false_iff_ne]
        intro he
        have h1 : f.name ∈ tl.map FSEntry.name := List.mem_map_of_mem _ hf'
        rw [← he] at h1
        have h2 : (tl.map FSEntry.name).contains g.name = true := by
          unfold List.contains
          exact List.elem_eq_true_of_mem h1
        rw [hnd.1] at h2
        cases h2
      by_cases hpg : pred g = true
      · rw [List.filter_cons_of_pos hpg, List.map_cons, List.count_cons, ih hnd.2 hf' hp, hgf]
        simp
      · rw [List.filter_cons_of_neg (by simpa using hpg)]
        exact ih hnd.2 hf' hp

theorem count_block_zero (specs : List (AbsPath × Spec)) (fuel : Nat) (path : AbsPath)
    (n : String) (t : List String) (d : FSEntry) (hne : d.name ≠ n) :
    List.count (path ++ n :: t)
      ((pureCand specs fuel (path ++ [d.name]) d.childrenOf).map Prod.fst) = 0 := by
  apply List.count_eq_zero_of_not_mem
  intro hc
  obtain ⟨c, hcmem, hceq⟩ := List.mem_map.mp hc
  obtain ⟨e', _, s, hshape⟩ := pureCand_prefix specs fuel (path ++ [d.name]) d.childrenOf c hcmem
  rw [hshape, List.append_assoc] at hceq
  have h2 := List.append_cancel_left hceq
  simp only [List.cons_append, List.nil_append, List.cons.injEq] at h2
  exact hne h2.1

theorem count_blocks_zero (specs : List (AbsPath × Spec)) (fuel : Nat) (path : AbsPath)
    (n : String) (t : List String) :
    ∀ (ds : List FSEntry), (∀ d ∈ ds, d.name ≠ n) →
      List.count (path ++ n :: t)
        (((ds.map (fun d => pureCand specs fuel (path ++ [d.name]) d.childrenOf)).flatten).map
          Prod.fst) = 0 := by
  intro ds
  induction ds with
  | nil => intro _; rfl
  | cons d ds' ih =>
    intro h
    simp only [List.map_cons, List.flatten_cons, List.map_append, List.count_append]
    rw [count_block_zero specs fuel path n t d (h d (List.mem_cons_self _ _)),
      ih (fun x hx => h x (List.mem_cons_of_mem _ hx))]

theorem count_blocks_one (specs : List (AbsPath × Spec)) (fuel : Nat) (path : AbsPath)
    (n : String) (t : List String) :
    ∀ (ds : List FSEntry) (d0 : FSEntry),
      nodupB (ds.map FSEntry.name) = true → d0 ∈ ds → d0.name = n →
      List.count (path ++ n :: t)
        ((pureCand specs fuel (path ++ [d0.name]) d0.childrenOf).map Prod.fst) = 1 →
      List.count (path ++ n :: t)
        (((ds.map (fun d => pureCand specs fuel (path ++ [d.name]) d.childrenOf)).flatten).map
          Prod.fst) = 1 := by
  intro ds
  induction ds with
  | nil => intro d0 _ h; cases h
  | cons d ds' ih =>
    intro d0 hnd hd0 hname hcount
    simp only [List.map_cons, nodupB, Bool.and_eq_true, Bool.not_eq_true'] at hnd
    simp only [List.map_cons, List.flatten_cons, List.map_append, List.count_append]
    rcases List.mem_cons.mp hd0 with rfl | hd0'
    · rw [hcount, count_blocks_zero specs fuel path n t ds' ?_]
      intro x hx he
      have h1 : d0.name ∈ ds'.map FSEntry.name := by
        rw [hname, ← he]
        exact List.mem_map_of_mem _ hx
      have h2 : (ds'.map FSEntry.name).contains d0.name = true := by
        unfold List.contains
        exact List.elem_eq_true_of_mem h1
      rw [hnd.1] at h2
      cases h2
    · have hdn : d.name ≠ n := by
        intro he
        have h1 : d.name ∈ ds'.map FSEntry.name := by
          rw [he, ← hname]
          exact List.mem_map_of_mem _ hd0'
        have h2 : (ds'.map FSEntry.name).contains d.name = true := by
          unfold List.contains
          exact List.elem_eq_true_of_mem h1
        rw [hnd.1] at h2
        cases h2
      rw [count_block_zero specs fuel path n t d hdn,
        ih d0 hnd.2 hd0' hname hcount]

/-- Exactly-once counting for the write walk: a regular file of the tree
that no rule set matches, not lying under a `.git` directory, appears
exactly once among the candidate paths — provided the rule semantics is
hereditary (a match on a directory extends to everything under it, as
gitwildmatch directory patterns are). -/
theorem pureCand_count (specs : List (AbsPath × Spec))
    (hmono : ∀ p q : AbsPath, p <+: q → rulesMatch specs p = true → rulesMatch specs q = true) :
    ∀ (fuel : Nat) (path : AbsPath) (es : List FSEntry) (rel : List String) (f : FSEntry),
      sizeOf es ≤ fuel →
      wfForest fuel es = true →
      entryAt es rel = some f →
      f.isFileE = true →
      ".git" ∉ rel.dropLast →
      rulesMatch specs (path ++ rel) = false →
      List.count (path ++ rel) ((pureCand specs fuel path es).map Prod.fst) = 1 := by
  intro fuel
  induction fuel with
  | zero =>
    intro path es rel f hsz _ _ _ _ _
    have : sizeOf es ≠ 0 := by
      cases es <;> simp
    omega
  | succ fuel ih =>
    intro path es rel f hsz hwf hentry hfile hgit hrm
    match rel, hentry, hgit, hrm with
    | [n], hentry, hgit, hrm =>
      have hfind : findName n es = some f := hentry
      have hfmem : f ∈ es := List.mem_of_find?_eq_some hfind
      have hfname : f.name = n := by
        have := List.find?_some hfind
        simpa using this
      simp only [pureCand, List.map_append, List.count_append]
      have hA : List.count (path ++ [n])
          ((candOf specs path (es.filter FSEntry.isFileE)).map Prod.fst) = 1 := by
        unfold candOf
        rw [List.map_map]
        have hmm : (Prod.fst ∘ fun f => (path ++ [f.name], f)) =
            (fun f : FSEntry => path ++ [f.name]) := rfl
        rw [hmm, count_arc_frame]
        rw [← hfname]
        apply count_name_filter
        · exact nodupB_sublist (List.Sublist.map _ (List.filter_sublist es)) (wf_nodup hwf)
        · rw [List.mem_filter]
          exact ⟨hfmem, hfile⟩
        · rw [Bool.not_eq_true']
          rw [hfname]
          exact hrm
      have hB : List.count (path ++ [n])
          (((((es.filter FSEntry.isDirE).filter
              (fun d => !excludedPure specs (path ++ [d.name]) true)).map
            (fun d => pureCand specs fuel (path ++ [d.name]) d.childrenOf)).flatten).map
              Prod.fst) = 0 := by
        apply List.count_eq_zero_of_not_mem
        intro hc
        obtain ⟨c, hcmem, hceq⟩ := List.mem_map.mp hc
        rw [List.mem_flatten] at hcmem
        obtain ⟨L, hL, hcL⟩ := hcmem
        obtain ⟨d, _, rfl⟩ := List.mem_map.mp hL
        obtain ⟨e', _, s, hshape⟩ :=
          pureCand_prefix specs fuel (path ++ [d.name]) d.childrenOf c hcL
        rw [hshape, List.append_assoc] at hceq
        have h2 := List.append_cancel_left hceq
        simp only [List.cons_append, List.nil_append, List.cons.injEq] at h2
        exact List.cons_ne_nil _ _ h2.2
      rw [hA, hB]
    | n :: r1 :: rs, hentry, hgit, hrm =>
      have hstep : ∃ cs, findName n es = some (FSEntry.dir n cs) ∧
          entryAt cs (r1 :: rs) = some f := by
        unfold entryAt at hentry
        cases hfind : findName n es with
        | none => rw [hfind] at hentry; cases hentry
        | some e0 =>
          cases e0 with
          | file nm c m => rw [hfind] at hentry; cases hentry
          | dir nm cs =>
            have hnm : nm = n := by
              have := List.find?_some hfind
              simpa [FSEntry.name] using this
            subst hnm
            rw [hfind] at hentry
            exact ⟨cs, rfl, hentry⟩
      obtain ⟨cs, hfind, hrec⟩ := hstep
      have hdmem : FSEntry.dir n cs ∈ es := List.mem_of_find?_eq_some hfind
      have hngit : n ≠ ".git" := by
        intro he
        apply hgit
        rw [List.dropLast_cons₂, he]
        exact List.mem_cons_self _ _
      have hnrm : rulesMatch specs (path ++ [n]) = false := by
        by_cases hx : rulesMatch specs (path ++ [n]) = true
        · have := hmono (path ++ [n]) (path ++ n :: r1 :: rs)
            ⟨r1 :: rs, by rw [List.append_assoc]; rfl⟩ hx
          rw [hrm] at this
          cases this
        · exact Bool.not_eq_true _ |>.mp hx
      have hkept : FSEntry.dir n cs ∈ (es.filter FSEntry.isDirE).filter
          (fun d => !excludedPure specs (path ++ [d.name]) true) := by
        rw [List.mem_filter, List.mem_filter]
        refine ⟨⟨hdmem, rfl⟩, ?_⟩
        rw [Bool.not_eq_true']
        unfold excludedPure
        rw [Bool.or_eq_false_iff, Bool.and_eq_false_iff]
        constructor
        · left
          rw [beq_eq_false_iff_ne]
          rw [List.getLast?_concat]
          intro hx
          exact hngit (by simpa using hx)
        · exact hnrm
      have hnodupkept : nodupB (((es.filter FSEntry.isDirE).filter
          (fun d => !excludedPure specs (path ++ [d.name]) true)).map FSEntry.name) = true := by
        apply nodupB_sublist (List.Sublist.map _ ?_) (wf_nodup hwf)
        exact List.Sublist.trans (List.filter_sublist _) (List.filter_sublist es)
      have hcount : List.count (path ++ n :: r1 :: rs)
          ((pureCand specs fuel (path ++ [(FSEntry.dir n cs).name])
            (FSEntry.dir n cs).childrenOf).map Prod.fst) = 1 := by
        show List.count (path ++ n :: r1 :: rs)
          ((pureCand specs fuel (path ++ [n]) cs).map Prod.fst) = 1
        have hx := ih (path ++ [n]) cs (r1 :: rs) f ?_ ?_ hrec hfile ?_ ?_
        · rw [List.append_assoc] at hx
          exact hx
        · have h1 := List.sizeOf_lt_of_mem hdmem
          have h2 : sizeOf cs < sizeOf (FSEntry.dir n cs) := by simp
          omega
        · exact wf_children hwf hdmem
        · intro hx
          apply hgit
          rw [List.dropLast_cons₂]
          exact List.mem_cons_of_mem _ hx
        · rw [List.append_assoc]
          exact hrm
      simp only [pureCand, List.map_append, List.count_append]
      have hA : List.count (path ++ n :: r1 :: rs)
          ((candOf specs path (es.filter FSEntry.isFileE)).map Prod.fst) = 0 := by
        apply List.count_eq_zero_of_not_mem
        intro hc
        obtain ⟨c, hcmem, hceq⟩ := List.mem_map.mp hc
        unfold candOf at hcmem
        obtain ⟨g, _, rfl⟩ := List.mem_map.mp hcmem
        have h2 := List.append_cancel_left hceq
        simp at h2
      rw [hA, count_blocks_one specs fuel path n (r1 :: rs) _ (FSEntry.dir n cs)
        hnodupkept hkept rfl hcount]

/-- Relativizing to the source parent is injective below the source root:
counting an arcname among the produced arcnames is counting its absolute
path among the candidate paths. -/
theorem count_map_arc (l : List String) (m : String) (rel : List String) :
    ∀ (cand : List (AbsPath × FSEntry)),
      (∀ c ∈ cand, ∃ s, c.1 = (l ++ [m]) ++ s) →
      List.count (relpathComps ((l ++ [m]) ++ rel) l)
        (cand.map (fun c => relpathComps c.1 l)) =
      List.count ((l ++ [m]) ++ rel) (cand.map Prod.fst) := by
  intro cand
  induction cand with
  | nil => intro _; rfl
  | cons c cand' ih =>
    intro h
    obtain ⟨s, hs⟩ := h c (List.mem_cons_self _ _)
    simp only [List.map_cons, List.count_cons,
      ih (fun x hx => h x (List.mem_cons_of_mem _ hx))]
    congr 1
    rw [hs]
    have e1 : relpathComps ((l ++ [m]) ++ s) l = m :: s := by
      rw [List.append_assoc]; exact relpathComps_under l m s
    have e2 : relpathComps ((l ++ [m]) ++ rel) l = m :: rel := by
      rw [List.append_assoc]; exact relpathComps_under l m rel
    rw [e1, e2]
    by_cases he : s = rel
    · subst he; simp
    · have h1 : (m :: s) ≠ (m :: rel) := by simp [he]
      have h2 : (l ++ [m]) ++ s ≠ (l ++ [m]) ++ rel := by
        intro hc
        exact he (List.append_cancel_left hc)
      simp [h1, h2]
      exact he

theorem rulesMatch_nil (p : AbsPath) : rulesMatch [] p = false := rfl

theorem addedOf_all (env : Env) (cand : List (AbsPath × FSEntry))
    (hadd : ∀ p, env.addFail p = false) : addedOf env cand = cand := by
  unfold addedOf
  apply List.filter_eq_self.mpr
  intro c _
  rw [hadd c.1]
  rfl

/-- C1 (amended): scope of the rule sets `_should_exclude` consults.  For a
path with no cache interference that is not a `.git` directory, the method
reports the path excluded exactly when some registered rule set whose base
directory's path STRING is a `startswith` prefix of the path's string
matches the path relativized to that base — not only rule sets whose base
directory is a component-wise ancestor of the path: a sibling directory
whose name is a string prefix (`/src/foo` vs `/src/foobar`) is consulted
too. -/
theorem C1_rule_scope (st : BkState) (path : AbsPath) (isDir : Bool)
    (hcache : path ∉ st.excluded_paths)
    (hgit : ¬(path.getLast? = some ".git" ∧ isDir = true)) :
    (should_exclude path isDir st).1 = true ↔
      ∃ kv ∈ st.gitignore_specs,
        pyStartsWith (pathString path) (pathString kv.1) = true ∧
        kv.2 (relpathStr path kv.1) = true := by
  rw [should_exclude_fst]
  have h1 : decide (path ∈ st.excluded_paths) = false := decide_eq_false hcache
  rw [h1, Bool.false_or]
  unfold excludedPure
  have h2 : (path.getLast? == some ".git" && isDir) = false := by
    rw [Bool.and_eq_false_iff]
    by_cases hgl : path.getLast? = some ".git"
    · right
      by_cases hd : isDir = true
      · exact absurd ⟨hgl, hd⟩ hgit
      · exact Bool.not_eq_true _ |>.mp hd
    · left
      exact beq_eq_false_iff_ne.mpr hgl
  rw [h2, Bool.false_or]
  unfold rulesMatch
  rw [List.any_eq_true]
  constructor
  · rintro ⟨kv, hkv, hb⟩
    rw [Bool.and_eq_true] at hb
    exact ⟨kv, hkv, hb.1, hb.2⟩
  · rintro ⟨kv, hkv, hb1, hb2⟩
    exact ⟨kv, hkv, by rw [Bool.and_eq_true]; exact ⟨hb1, hb2⟩⟩

/-- Witness for C1 at a concrete input: after scanning `demoTree1`, the
query on `/src/foobar/x.txt` is governed by the string-prefix rule scope. -/
theorem C1_rule_scope_witness :
    (should_exclude ["src", "foobar", "x.txt"] false demoStC1).1 = true ↔
      ∃ kv ∈ demoStC1.gitignore_specs,
        pyStartsWith (pathString ["src", "foobar", "x.txt"]) (pathString kv.1) = true ∧
        kv.2 (relpathStr ["src", "foobar", "x.txt"] kv.1) = true :=
  C1_rule_scope demoStC1 ["src", "foobar", "x.txt"] false (by decide)
    (fun h => Bool.noConfusion h.2)

/-- C1 counterexample to the claimed ancestor-only scope: after scanning
`/src` (where `/src/foo/.gitignore` holds the pattern `x.txt`),
`_should_exclude` reports `/src/foobar/x.txt` excluded although no
registered rule set's base directory is an ancestor of that path —
`/src/foo` is consulted merely because the string `/src/foo` is a
`startswith` prefix of `/src/foobar/x.txt`. -/
theorem C1_counterexample :
    (should_exclude ["src", "foobar", "x.txt"] false demoStC1).1 = true ∧
    ∀ kv ∈ demoStC1.gitignore_specs,
      isAncestorBaseOf kv.1 ["src", "foobar", "x.txt"] = false := by
  constructor
  · decide
  · decide

/-- C4 (amended): after a fatal failure the handler of `create_backup`
re-raises the original error and best-effort removes the partial output
file when one was created (it remains when the removal itself fails), but
the temporary manifest directory created by `mkdtemp` is NOT removed — the
`shutil.rmtree` cleanup lies on the success path only, so temp scratch
state remains whenever the failure struck after `mkdtemp`. -/
theorem C4_fatal_cleanup (p : FatalPoint) (e : String) (removeOk : Bool) :
    (fatalOutcome p e removeOk).1.outputExists = (outputCreatedAt p && !removeOk) ∧
    (fatalOutcome p e removeOk).1.tempDirExists = tempCreatedAt p ∧
    (fatalOutcome p e removeOk).2 = Except.error e := by
  cases p <;> cases removeOk <;> exact ⟨rfl, rfl, rfl⟩

/-- C4 counterexample to the claimed full cleanup: a fatal failure at
`tarfile.open` (after `mkdtemp` succeeded) leaves the temporary manifest
directory on disk. -/
theorem C4_counterexample :
    (fatalOutcome FatalPoint.atOpen "disk error" true).1.tempDirExists = true ∧
    (backupDiskOutcome (some FatalPoint.atOpen) "disk error" true "out.tar").1.tempDirExists
      = true :=
  ⟨rfl, rfl⟩

/-- C5 (confirmed): whatever the failure point and whether or not the
best-effort removal of the partial output succeeds, the backup reports the
original error unchanged — cleanup never masks the failure. -/
theorem C5_error_preserved (p : FatalPoint) (e : String) (removeOk : Bool)
    (outPath : String) :
    (backupDiskOutcome (some p) e removeOk outPath).2 = Except.error e := rfl

/-- C8 (confirmed): an invalid source (missing or not a directory) makes
construction fail with the `ValueError` message before any side effect:
the resulting disk state records no scan, no output file and no temporary
directory. -/
theorem C8_invalid_source (sourceDir : AbsPath) (output_file : Option String)
    (compression : String) (verbose : Bool) (stamp : String) :
    constructAndStart sourceDir none output_file compression verbose stamp =
      (initialDisk, Except.error
        ("Source directory '" ++ pathString sourceDir ++ "' does not exist")) ∧
    initialDisk.scanRan = false ∧ initialDisk.outputExists = false ∧
    initialDisk.tempDirExists = false :=
  ⟨rfl, rfl, rfl, rfl⟩

/-- C2 (amended): on a successful run (no per-file add failure) over a
well-formed source tree, PROVIDED every rule set's matching is hereditary
(a match on a directory extends to every path under it), every regular
file that no ignore rule set matches and that does not lie under a
directory named `.git` is added to the archive exactly once, under the
archive name obtained by relativizing its path to the parent directory of
the source root.  The hereditary proviso is necessary: gitwildmatch
negation patterns violate it, and then the walk prunes a matched directory
whose unmatched files are silently never archived (`C2_counterexample`). -/
theorem C2_archived_once {α : Type} (H : HashModel α) (env : Env) (clock : String)
    (fuel : Nat) (tree : List FSEntry) (l : List String) (m : String)
    (rel : List String) (f : FSEntry)
    (hsrc : env.src = l ++ [m])
    (hsz : sizeOf tree ≤ fuel)
    (hwf : wfForest fuel tree = true)
    (hmono : ∀ p q : AbsPath, p <+: q →
      rulesMatch (pureSpecs env.compile fuel env.src tree) p = true →
      rulesMatch (pureSpecs env.compile fuel env.src tree) q = true)
    (hadd : ∀ p, env.addFail p = false)
    (hentry : entryAt tree rel = some f)
    (hfile : f.isFileE = true)
    (hgit : ".git" ∉ rel.dropLast)
    (hrm : rulesMatch (pureSpecs env.compile fuel env.src tree) (env.src ++ rel) = false) :
    List.count (relpathComps (env.src ++ rel) env.src.dropLast)
      (create_backup H env clock fuel tree).archive = 1 := by
  obtain ⟨-, -, harch, -, -, -⟩ := create_backup_char H env clock fuel tree hsz hwf
  rw [harch, addedOf_all env _ hadd, List.count_append]
  have hshape : ∀ c ∈ pureCand (pureSpecs env.compile fuel env.src tree) fuel env.src tree,
      ∃ s, c.1 = (l ++ [m]) ++ s := by
    intro c hc
    obtain ⟨e, _, s, hs⟩ :=
      pureCand_prefix (pureSpecs env.compile fuel env.src tree) fuel env.src tree c hc
    exact ⟨e.name :: s, by rw [hs, hsrc]⟩
  have hrelne : rel ≠ [] := by
    intro h
    subst h
    unfold entryAt at hentry
    cases hentry
  have hcount := pureCand_count (pureSpecs env.compile fuel env.src tree) hmono fuel
    env.src tree rel f hsz hwf hentry hfile hgit hrm
  rw [hsrc] at hshape hcount ⊢
  rw [List.dropLast_concat]
  rw [count_map_arc l m rel _ hshape, hcount]
  have hmf : List.count (relpathComps (l ++ [m] ++ rel) l)
      (if env.verbose then [["backup_manifest.txt"]] else []) = 0 := by
    have harc : relpathComps (l ++ [m] ++ rel) l = m :: rel := by
      rw [List.append_assoc]
      exact relpathComps_under l m rel
    cases env.verbose
    · rfl
    · simp only [if_pos rfl]
      apply List.count_eq_zero_of_not_mem
      rw [harc]
      intro hc
      rcases List.mem_singleton.mp hc with hq
      have := (List.cons.injEq _ _ _ _).mp hq
      exact hrelne this.2
  rw [hmf]

/-- Witness for C2 at a concrete input: `/s/root/a.txt` is archived exactly
once as `root/a.txt` in a successful run over `demoTree3`. -/
theorem C2_archived_once_witness :
    List.count (relpathComps (demoEnvOk.src ++ ["a.txt"]) demoEnvOk.src.dropLast)
      (create_backup listHash demoEnvOk "c" 100000 demoTree3).archive = 1 :=
  C2_archived_once listHash demoEnvOk "c" 100000 demoTree3 ["s"] "root" ["a.txt"]
    (FSEntry.file "a.txt" [97] "t3") rfl (by decide) (by decide)
    (fun p q _ h => by
      rw [show pureSpecs demoEnvOk.compile 100000 demoEnvOk.src demoTree3 =
        ([] : List (AbsPath × Spec)) from rfl, rulesMatch_nil] at h
      exact Bool.noConfusion h)
    (fun _ => rfl) rfl rfl (by decide) rfl

/-- C2 counterexample to the original claim: with the gitwildmatch pattern
file `a` + `!a/b.txt` (modelled by `negCompile`), the regular file
`/s/root/a/b.txt` exists, lies under no `.git` directory, is matched by no
rule set, and the run is fully successful (no add failure, `demoEnvNeg`),
yet its arcname never appears in the archive: the write walk prunes the
directory `/s/root/a`, whose own path the rule set matches, and never
reaches the exempted file inside. -/
theorem C2_counterexample :
    entryAt demoTree5 ["a", "b.txt"] = some (FSEntry.file "b.txt" [98] "t9") ∧
    ".git" ∉ (["a", "b.txt"] : List String).dropLast ∧
    rulesMatch (pureSpecs demoEnvNeg.compile 300 demoEnvNeg.src demoTree5)
      (demoEnvNeg.src ++ ["a", "b.txt"]) = false ∧
    List.count (relpathComps (demoEnvNeg.src ++ ["a", "b.txt"]) demoEnvNeg.src.dropLast)
      (create_backup listHash demoEnvNeg "c" 300 demoTree5).archive = 0 := by
  refine ⟨rfl, by decide, by decide, by decide⟩

/-- C3 (confirmed): a directory named `.git` is always reported excluded by
`_should_exclude` regardless of rule sets; every archive entry of a run
lies outside any `.git` subtree (only a final component may be a regular
file literally named `.git`); and every rule set the scan registers is
keyed outside any `.git` subtree — so nested `.gitignore` files inside a
`.git` directory are never read. -/
theorem C3_git_pruned {α : Type} (H : HashModel α) (env : Env) (clock : String)
    (fuel : Nat) (tree : List FSEntry) (l : List String) (m : String)
    (hsrc : env.src = l ++ [m])
    (hsz : sizeOf tree ≤ fuel) (hwf : wfForest fuel tree = true) :
    (∀ (p : AbsPath) (st : BkState), p.getLast? = some ".git" →
        (should_exclude p true st).1 = true) ∧
    (∀ a ∈ (create_backup H env clock fuel tree).archive,
        a = ["backup_manifest.txt"] ∨ ∃ s, a = m :: s ∧ ".git" ∉ s.dropLast) ∧
    (∀ kv ∈ (create_backup H env clock fuel tree).gitignore_specs,
        ∃ s, kv.1 = env.src ++ s ∧ ".git" ∉ s) := by
  obtain ⟨hspecs, -, harch, -, -, -⟩ := create_backup_char H env clock fuel tree hsz hwf
  refine ⟨?_, ?_, ?_⟩
  · intro p st hgl
    rw [should_exclude_fst]
    unfold excludedPure
    rw [hgl]
    simp
  · intro a ha
    rw [harch] at ha
    rcases List.mem_append.mp ha with ha1 | ha1
    · right
      obtain ⟨c, hc, rfl⟩ := List.mem_map.mp ha1
      have hc' : c ∈ pureCand (pureSpecs env.compile fuel env.src tree) fuel env.src tree :=
        List.Sublist.mem hc (List.filter_sublist _)
      obtain ⟨s, hs1, hs2, hs3⟩ :=
        pureCand_nogit (pureSpecs env.compile fuel env.src tree) fuel env.src tree c hc'
      refine ⟨s, ?_, hs3⟩
      rw [hs1, hsrc]
      have hdrop : (l ++ [m]).dropLast = l := List.dropLast_concat
      rw [hdrop, List.append_assoc]
      exact relpathComps_under l m s
    · left
      cases hv : env.verbose
      · rw [hv] at ha1
        cases ha1
      · rw [hv] at ha1
        simp only [if_pos rfl] at ha1
        exact List.mem_singleton.mp ha1
  · intro kv hkv
    rw [hspecs] at hkv
    exact pureSpecs_nogit env.compile fuel env.src tree hwf kv hkv

/-- Witness for C3 at a concrete input: the run over `demoTree4`, whose
`.git` directory holds a config file and a nested `.gitignore`. -/
theorem C3_git_pruned_witness :
    (∀ (p : AbsPath) (st : BkState), p.getLast? = some ".git" →
        (should_exclude p true st).1 = true) ∧
    (∀ a ∈ (create_backup listHash demoEnvOk "c" 100000 demoTree4).archive,
        a = ["backup_manifest.txt"] ∨ ∃ s, a = "root" :: s ∧ ".git" ∉ s.dropLast) ∧
    (∀ kv ∈ (create_backup listHash demoEnvOk "c" 100000 demoTree4).gitignore_specs,
        ∃ s, kv.1 = demoEnvOk.src ++ s ∧ ".git" ∉ s) :=
  C3_git_pruned listHash demoEnvOk "c" 100000 demoTree4 ["s"] "root" rfl
    (by decide) (by decide)

/-- C6 (amended): in a successful verbose run the manifest holds, after its
three header lines, exactly one line
`relativePath,sizeBytes,isoModifiedTime,hexDigest` per FULLY PROCESSED file
— the files whose add and metadata step both succeeded, i.e. the final
`processed_files` — with the digest equal to the streaming digest of the
whole file content; a file whose metadata step fails after a successful
`tar.add` is in the archive but has no manifest line, so the entry count
can fall short of the archived-file count (see `C6_counterexample`). -/
theorem C6_manifest_lines {α : Type} (H : HashModel α) (env : Env) (clock : String)
    (fuel : Nat) (tree : List FSEntry)
    (hsz : sizeOf tree ≤ fuel) (hwf : wfForest fuel tree = true)
    (hv : env.verbose = true)
    (hid : ∀ a, H.upd a [] = a)
    (hcat : ∀ a b c, H.upd (H.upd a b) c = H.upd a (b ++ c)) :
    (create_backup H env clock fuel tree).manifest =
      ["# Backup created: " ++ clock, "# Source: " ++ pathString env.src,
        "# path,size,modified,sha256"] ++
      (processedOf env
        (pureCand (pureSpecs env.compile fuel env.src tree) fuel env.src tree)).map
        (fun c => manifestLine (relpathStr c.1 env.src.dropLast) c.2.contentOf.length
          c.2.mtimeOf (wholeDigest H c.2.contentOf)) ∧
    (create_backup H env clock fuel tree).manifest.length =
      3 + (create_backup H env clock fuel tree).processed_files := by
  obtain ⟨-, -, -, hman, hproc, -⟩ := create_backup_char H env clock fuel tree hsz hwf
  rw [hv] at hman
  rw [if_pos rfl] at hman
  constructor
  · rw [hman]
    congr 1
    apply List.map_congr_left
    intro c _
    unfold lineOf
    rw [calculate_checksum_eq_wholeDigest H hid hcat]
  · rw [hman, hproc, List.length_append, List.length_map]
    rfl

/-- Witness for C6 at a concrete input: the successful verbose run over
`demoTree3` with the concatenating hash. -/
theorem C6_manifest_lines_witness :
    (create_backup listHash demoEnvOk "c" 100000 demoTree3).manifest =
      ["# Backup created: " ++ "c", "# Source: " ++ pathString demoEnvOk.src,
        "# path,size,modified,sha256"] ++
      (processedOf demoEnvOk
        (pureCand (pureSpecs demoEnvOk.compile 100000 demoEnvOk.src demoTree3)
          100000 demoEnvOk.src demoTree3)).map
        (fun c => manifestLine (relpathStr c.1 demoEnvOk.src.dropLast)
          c.2.contentOf.length c.2.mtimeOf (wholeDigest listHash c.2.contentOf)) ∧
    (create_backup listHash demoEnvOk "c" 100000 demoTree3).manifest.length =
      3 + (create_backup listHash demoEnvOk "c" 100000 demoTree3).processed_files :=
  C6_manifest_lines listHash demoEnvOk "c" 100000 demoTree3 (by decide) (by decide)
    rfl (fun a => List.append_nil a) (fun a b c => List.append_assoc a b c)

/-- C6 counterexample to "one line per file actually added": in a verbose
run over a one-file tree whose metadata step always raises, the archive
holds two entries (the file `a.txt`, whose `tar.add` succeeded, plus
`backup_manifest.txt`) while the manifest holds only its three header lines
— no entry line for the archived file, because the manifest line is written
only after the `os.stat`/checksum step that failed. -/
theorem C6_counterexample :
    (create_backup listHash demoEnvMeta "T" 300 demoTree2).archive.length = 2 ∧
    (create_backup listHash demoEnvMeta "T" 300 demoTree2).manifest.length = 3 ∧
    (create_backup listHash demoEnvMeta "T" 300 demoTree2).processed_files = 0 :=
  ⟨rfl, rfl, rfl⟩

/-- C7 (confirmed): a per-file add failure is absorbed — the failing file is
missing from the archive's admitted list and from the processed count, the
run continues with every other candidate, and the final skipped statistic is
the scan total minus the processed count. -/
theorem C7_per_file_failure {α : Type} (H : HashModel α) (env : Env) (clock : String)
    (fuel : Nat) (tree : List FSEntry)
    (hsz : sizeOf tree ≤ fuel) (hwf : wfForest fuel tree = true) :
    (∀ c ∈ pureCand (pureSpecs env.compile fuel env.src tree) fuel env.src tree,
        env.addFail c.1 = true →
        c ∉ addedOf env (pureCand (pureSpecs env.compile fuel env.src tree) fuel env.src tree) ∧
        c ∉ processedOf env
          (pureCand (pureSpecs env.compile fuel env.src tree) fuel env.src tree)) ∧
    (create_backup H env clock fuel tree).archive =
      (addedOf env (pureCand (pureSpecs env.compile fuel env.src tree) fuel env.src tree)).map
        (fun c => relpathComps c.1 env.src.dropLast) ++
      (if env.verbose then [["backup_manifest.txt"]] else []) ∧
    (create_backup H env clock fuel tree).processed_files =
      (processedOf env
        (pureCand (pureSpecs env.compile fuel env.src tree) fuel env.src tree)).length ∧
    skippedOf (create_backup H env clock fuel tree) =
      (pureScanTotal fuel tree : Int) -
      ((processedOf env
        (pureCand (pureSpecs env.compile fuel env.src tree) fuel env.src tree)).length : Int) := by
  obtain ⟨-, ht, harch, -, hproc, -⟩ := create_backup_char H env clock fuel tree hsz hwf
  refine ⟨?_, harch, hproc, ?_⟩
  · intro c _ hfail
    constructor
    · intro hmem
      have h2 := (List.mem_filter.mp hmem).2
      rw [hfail] at h2
      exact Bool.noConfusion h2
    · intro hmem
      have h2 := (List.mem_filter.mp (List.mem_filter.mp hmem).1).2
      rw [hfail] at h2
      exact Bool.noConfusion h2
  · unfold skippedOf
    rw [ht, hproc]

/-- Witness for C7 at a concrete input: the run over `demoTree3` in which
`tar.add` raises on `/s/root/bad.txt` only. -/
theorem C7_per_file_failure_witness :
    (∀ c ∈ pureCand (pureSpecs demoEnvAdd.compile 100000 demoEnvAdd.src demoTree3)
        100000 demoEnvAdd.src demoTree3,
        demoEnvAdd.addFail c.1 = true →
        c ∉ addedOf demoEnvAdd
          (pureCand (pureSpecs demoEnvAdd.compile 100000 demoEnvAdd.src demoTree3)
            100000 demoEnvAdd.src demoTree3) ∧
        c ∉ processedOf demoEnvAdd
          (pureCand (pureSpecs demoEnvAdd.compile 100000 demoEnvAdd.src demoTree3)
            100000 demoEnvAdd.src demoTree3)) ∧
    (create_backup listHash demoEnvAdd "c" 100000 demoTree3).archive =
      (addedOf demoEnvAdd
        (pureCand (pureSpecs demoEnvAdd.compile 100000 demoEnvAdd.src demoTree3)
          100000 demoEnvAdd.src demoTree3)).map
        (fun c => relpathComps c.1 demoEnvAdd.src.dropLast) ++
      (if demoEnvAdd.verbose then [["backup_manifest.txt"]] else []) ∧
    (create_backup listHash demoEnvAdd "c" 100000 demoTree3).processed_files =
      (processedOf demoEnvAdd
        (pureCand (pureSpecs demoEnvAdd.compile 100000 demoEnvAdd.src demoTree3)
          100000 demoEnvAdd.src demoTree3)).length ∧
    skippedOf (create_backup listHash demoEnvAdd "c" 100000 demoTree3) =
      (pureScanTotal 100000 demoTree3 : Int) -
      ((processedOf demoEnvAdd
        (pureCand (pureSpecs demoEnvAdd.compile 100000 demoEnvAdd.src demoTree3)
          100000 demoEnvAdd.src demoTree3)).length : Int) :=
  C7_per_file_failure listHash demoEnvAdd "c" 100000 demoTree3 (by decide) (by decide)

/-- C9 (confirmed): two verbose runs over the same unchanged tree differ in
their manifests only by the creation-timestamp header line — everything
from the second line on (source header, column header and every per-file
entry line, including the modification-time fields, which the unchanged
tree keeps equal) is identical. -/
theorem C9_manifest_idempotent {α : Type} (H : HashModel α) (env : Env)
    (c1 c2 : String) (fuel : Nat) (tree : List FSEntry)
    (hsz : sizeOf tree ≤ fuel) (hwf : wfForest fuel tree = true) :
    (create_backup H env c1 fuel tree).manifest.drop 1 =
      (create_backup H env c2 fuel tree).manifest.drop 1 ∧
    (create_backup H env c1 fuel tree).manifest.take 1 =
      ["# Backup created: " ++ c1] ∧
    (create_backup H env c2 fuel tree).manifest.take 1 =
      ["# Backup created: " ++ c2] := by
  obtain ⟨-, -, -, hman1, -, -⟩ := create_backup_char H env c1 fuel tree hsz hwf
  obtain ⟨-, -, -, hman2, -, -⟩ := create_backup_char H env c2 fuel tree hsz hwf
  rw [hman1, hman2]
  exact ⟨rfl, rfl, rfl⟩

/-- Witness for C9 at a concrete input: runs over `demoTree3` with clocks
`"2024"` and `"2025"`. -/
theorem C9_manifest_idempotent_witness :
    (create_backup listHash demoEnvOk "2024" 100000 demoTree3).manifest.drop 1 =
      (create_backup listHash demoEnvOk "2025" 100000 demoTree3).manifest.drop 1 ∧
    (create_backup listHash demoEnvOk "2024" 100000 demoTree3).manifest.take 1 =
      ["# Backup created: " ++ "2024"] ∧
    (create_backup listHash demoEnvOk "2025" 100000 demoTree3).manifest.take 1 =
      ["# Backup created: " ++ "2025"] :=
  C9_manifest_idempotent listHash demoEnvOk "2024" "2025" 100000 demoTree3
    (by decide) (by decide)

/-- C10 (confirmed): every progress division the write pass evaluates is
safe — its numerator is the then-current processed count, at least 1, its
denominator is the scan-pass total, at least the numerator and hence
nonzero. -/
theorem C10_progress_division_safe {α : Type} (H : HashModel α) (env : Env)
    (clock : String) (fuel : Nat) (tree : List FSEntry)
    (hsz : sizeOf tree ≤ fuel) (hwf : wfForest fuel tree = true) :
    ∀ d ∈ (create_backup H env clock fuel tree).divisions,
      1 ≤ d.1 ∧ d.1 ≤ d.2 ∧
      d.2 = (create_backup H env clock fuel tree).total_files ∧ 0 < d.2 := by
  obtain ⟨-, ht, -, -, hproc, hdiv⟩ := create_backup_char H env clock fuel tree hsz hwf
  intro d hd
  obtain ⟨h1, h2, h3⟩ := hdiv d hd
  have hle : (processedOf env
      (pureCand (pureSpecs env.compile fuel env.src tree) fuel env.src tree)).length ≤
      pureScanTotal fuel tree :=
    Nat.le_trans (processedOf_length_le env _)
      (pureCand_length_le (pureSpecs env.compile fuel env.src tree) fuel env.src tree)
  refine ⟨h1, by omega, by rw [h3, ht], by omega⟩

/-- Witness for C10 at a concrete input: in the run over `demoTree3` the
final file triggers the `processed == total` progress report, recording the
operand pair `(2, 2)`, which is safe. -/
theorem C10_progress_division_safe_witness :
    (2, 2) ∈ (create_backup listHash demoEnvOk "c" 100000 demoTree3).divisions ∧
    (1 ≤ (2, 2).1 ∧ (2, 2).1 ≤ (2, 2).2 ∧
     (2, 2).2 = (create_backup listHash demoEnvOk "c" 100000 demoTree3).total_files ∧
     0 < (2, 2).2) :=
  ⟨by decide, C10_progress_division_safe listHash demoEnvOk "c" 100000 demoTree3
    (by decide) (by decide) (2, 2) (by decide)⟩

end GitBackup
